import Mathlib

/-!
# FactorMAP: factor risk premia (`src/frp.cpp`)

A shallow embedding of the estimation core of `frp.cpp` in exact arithmetic over a
linearly ordered field, followed by theorems about it.

* Armadillo matrices are dynamically sized, so `Mat` carries its two extents as data
  and every operation that Armadillo guards with a size or bounds check returns
  `Except Err`.  A column vector (`arma::vec`) is a matrix with one column.
* The linear-algebra primitives of Armadillo (`solve`, `inv_sympd`, `cov`, `mean`, ...)
  are not part of the repository; they are embedded by their documented contract.
* Rounding and overflow are not embedded.  The one division of `frp.cpp` whose divisor
  can vanish in a call that goes through, `frp / se` in `IterativeKRSFRPCpp`, is embedded
  with the infinities and the NaN of IEEE arithmetic (`IEEE`), and so are the functions
  applied to its result.
* `HACStandardErrorsCpp` (declared in `hac_standard_errors.h`) and `R::qnorm` are
  supplied to the functions that call them as arguments.
-/

set_option linter.unusedSectionVars false

namespace FactorMAP

/-- The ways a call can fail. -/
inductive Err where
  /-- A `std::logic_error` of Armadillo: extents that do not fit, an index out of
  bounds, `index_min` of an object without elements. -/
  | logic_error
  /-- A `std::runtime_error` of Armadillo: `inv_sympd` of a matrix that is not positive
  definite. -/
  | runtime_error
  /-- Undefined behaviour of the C++ standard library (erasing past the end). -/
  | undefined_behaviour
  /-- An input the embedding does not cover: a system handed to `solve` that is not
  square or is singular (Armadillo then falls back to a least-squares or approximate
  solution), an asymmetric matrix handed to `inv_sympd`. -/
  | unsupported
  deriving DecidableEq, Repr

/-- A `double` as a division leaves it: a number, an infinity, or NaN. -/
inductive IEEE (α : Type) where
  | num (x : α)
  | inf
  | neg_inf
  | nan
  deriving DecidableEq

namespace IEEE

variable {α : Type} [LinearOrderedField α]

/-- The quotient `a / b` of two numbers in IEEE arithmetic: a number divided by zero is
an infinity, and `0 / 0` is NaN.  The infinity has the sign of the number, the zero
being the `+0` that a standard error is; the program only looks at the absolute value
of the quotient. -/
def div (a b : α) : IEEE α :=
  if b = 0 then
    if a = 0 then nan else if 0 < a then inf else neg_inf
  else num (a / b)

/-- The function `std::abs`. -/
def abs : IEEE α → IEEE α
  | num x => num |x|
  | inf => inf
  | neg_inf => inf
  | nan => nan

/-- The comparison `a < b` of two doubles, which is false when either is NaN. -/
def lt : IEEE α → IEEE α → Prop
  | num x, num y => x < y
  | num _, inf => True
  | neg_inf, num _ => True
  | neg_inf, inf => True
  | _, _ => False

instance instDecidableLt : DecidableRel (lt : IEEE α → IEEE α → Prop)
  | num x, num y => inferInstanceAs (Decidable (x < y))
  | num _, inf => isTrue trivial
  | neg_inf, num _ => isTrue trivial
  | neg_inf, inf => isTrue trivial
  | num _, neg_inf => isFalse not_false
  | num _, nan => isFalse not_false
  | inf, _ => isFalse not_false
  | neg_inf, neg_inf => isFalse not_false
  | neg_inf, nan => isFalse not_false
  | nan, _ => isFalse not_false

end IEEE

/-- An Armadillo matrix `arma::mat`: `n_rows`, `n_cols` and the entries. -/
structure Mat (α : Type) where
  n_rows : ℕ
  n_cols : ℕ
  mem : Matrix (Fin n_rows) (Fin n_cols) α

namespace Mat

variable {α : Type}

/-- A statically sized matrix as an Armadillo matrix. -/
def ofMatrix {r c : ℕ} (M : Matrix (Fin r) (Fin c) α) : Mat α := ⟨r, c, M⟩

/-- A vector as an `arma::vec`, a matrix with one column. -/
def ofCol {n : ℕ} (v : Fin n → α) : Mat α := ⟨n, 1, Matrix.col (Fin 1) v⟩

/-- The member `n_elem`. -/
def n_elem (A : Mat α) : ℕ := A.n_rows * A.n_cols

/-- The entry in row `i` and column `j`, and `0` outside the extents. -/
def elem [Zero α] (A : Mat α) (i j : ℕ) : α :=
  if h : i < A.n_rows ∧ j < A.n_cols then A.mem ⟨i, h.1⟩ ⟨j, h.2⟩ else 0

/-- The entries in memory order (Armadillo stores a matrix column by column). -/
def elems (A : Mat α) : List α :=
  (List.finRange A.n_cols).flatMap fun j => (List.finRange A.n_rows).map fun i => A.mem i j

/-- The member `.t()`: the transpose. -/
def t (A : Mat α) : Mat α := ⟨A.n_cols, A.n_rows, A.mem.transpose⟩

variable [LinearOrderedField α]

/-- The product `A * B`; Armadillo rejects extents that do not fit. -/
def mul (A B : Mat α) : Except Err (Mat α) :=
  if h : A.n_cols = B.n_rows then
    .ok ⟨A.n_rows, B.n_cols, A.mem * B.mem.submatrix (Fin.cast h) id⟩
  else .error .logic_error

/-- Entrywise combination of two matrices of the same extents (`+`, `-`, `%`). -/
def zipSame (f : α → α → α) (A B : Mat α) : Except Err (Mat α) :=
  if h : A.n_rows = B.n_rows ∧ A.n_cols = B.n_cols then
    .ok ⟨A.n_rows, A.n_cols, fun i j => f (A.mem i j) (B.mem (Fin.cast h.1 i) (Fin.cast h.2 j))⟩
  else .error .logic_error

/-- The sum `A + B`. -/
def add (A B : Mat α) : Except Err (Mat α) := zipSame (fun x y => x + y) A B

/-- The difference `A - B`. -/
def sub (A B : Mat α) : Except Err (Mat α) := zipSame (fun x y => x - y) A B

/-- The entrywise quotient `A / B` in IEEE arithmetic; Armadillo rejects extents that
do not agree, and nothing else. -/
def div (A B : Mat α) : Except Err (Mat (IEEE α)) :=
  if h : A.n_rows = B.n_rows ∧ A.n_cols = B.n_cols then
    .ok ⟨A.n_rows, A.n_cols,
      fun i j => IEEE.div (A.mem i j) (B.mem (Fin.cast h.1 i) (Fin.cast h.2 j))⟩
  else .error .logic_error

/-- The function `arma::abs`: entrywise absolute value. -/
def abs (A : Mat (IEEE α)) : Mat (IEEE α) :=
  ⟨A.n_rows, A.n_cols, fun i j => (A.mem i j).abs⟩

/-- The expression `A.each_row() - r`: the row vector `r` is subtracted from every row. -/
def each_row_sub (A r : Mat α) : Except Err (Mat α) :=
  if h : r.n_rows = 1 ∧ r.n_cols = A.n_cols then
    .ok ⟨A.n_rows, A.n_cols,
      fun i j => A.mem i j - r.mem (Fin.cast h.1.symm 0) (Fin.cast h.2.symm j)⟩
  else .error .logic_error

/-- The expression `A.each_col() % v`: every column is multiplied entrywise by the
column vector `v`. -/
def each_col_schur (A v : Mat α) : Except Err (Mat α) :=
  if h : v.n_rows = A.n_rows ∧ v.n_cols = 1 then
    .ok ⟨A.n_rows, A.n_cols,
      fun i j => A.mem i j * v.mem (Fin.cast h.1.symm i) (Fin.cast h.2.symm 0)⟩
  else .error .logic_error

/-- The inverse of a square matrix over a field, by the adjugate. -/
def inverse {n : ℕ} (M : Matrix (Fin n) (Fin n) α) : Matrix (Fin n) (Fin n) α :=
  (M.det)⁻¹ • M.adjugate

/-- The function `arma::solve(A, B, arma::solve_opts::likely_sympd)`: the solution `X` of
`A * X = B`.  The numbers of rows must agree; a square system with an invertible `A`
has the solution `A⁻¹ * B` (the `likely_sympd` hint only selects the factorisation
tried first).  For a singular or a non-square system Armadillo warns and looks for an
approximate solution; the embedding does not cover that. -/
def solve (A B : Mat α) : Except Err (Mat α) :=
  if hB : A.n_rows = B.n_rows then
    if hsq : A.n_cols = A.n_rows then
      let M : Matrix (Fin A.n_rows) (Fin A.n_rows) α := A.mem.submatrix id (Fin.cast hsq.symm)
      if M.det = 0 then .error .unsupported
      else .ok ⟨A.n_rows, B.n_cols, inverse M * B.mem.submatrix (Fin.cast hB) id⟩
    else .error .unsupported
  else .error .logic_error

/-- The function `arma::inv_sympd`: the inverse of a symmetric positive definite matrix.
A matrix that is not square is a logic error; the Cholesky factorisation succeeds
exactly when every leading principal minor is positive, and its failure is a runtime
error.  The function is only ever applied to symmetric matrices; an asymmetric one is
outside the embedding. -/
def inv_sympd (A : Mat α) : Except Err (Mat α) :=
  if hsq : A.n_cols = A.n_rows then
    let M : Matrix (Fin A.n_rows) (Fin A.n_rows) α := A.mem.submatrix id (Fin.cast hsq.symm)
    if M.transpose = M then
      if ∀ k : Fin (A.n_rows + 1),
          0 < (M.submatrix (Fin.castLE k.is_le) (Fin.castLE k.is_le)).det then
        .ok ⟨A.n_rows, A.n_rows, inverse M⟩
      else .error .runtime_error
    else .error .unsupported
  else .error .logic_error

/-- The function `arma::mean` of a matrix: the row vector of the column means (no row
at all when the matrix has no row). -/
def mean : Mat α → Mat α
  | ⟨0, c, _⟩ => ⟨0, c, fun i _ => i.elim0⟩
  | ⟨r + 1, c, M⟩ => ⟨1, c, fun _ j => (∑ i, M i j) / ((r + 1 : ℕ) : α)⟩

/-- Armadillo's covariance functions read a matrix with a single row as a column
vector. -/
def asObservations (A : Mat α) : Mat α := if A.n_rows = 1 then A.t else A

/-- The divisor of the sample covariance of `n` observations: `n - 1`, and `1` for a
single observation. -/
def norm_val (n : ℕ) : α := if 1 < n then ((n - 1 : ℕ) : α) else 1

/-- The function `arma::cov(A, B)`: the cross-covariance of the columns of `A` with the
columns of `B`, normalised by the number of observations less one. -/
def cov2 (A B : Mat α) : Except Err (Mat α) :=
  let AA := asObservations A
  let BB := asObservations B
  if h : AA.n_rows = BB.n_rows then
    if A.n_elem = 0 ∨ B.n_elem = 0 then .ok ⟨0, 0, fun i _ => i.elim0⟩
    else
      let ma := mean AA
      let mb := mean BB
      let tmp1 : Matrix (Fin AA.n_rows) (Fin AA.n_cols) α :=
        fun i j => AA.mem i j - ma.elem 0 j
      let tmp2 : Matrix (Fin AA.n_rows) (Fin BB.n_cols) α :=
        fun i j => BB.mem (Fin.cast h i) j - mb.elem 0 j
      .ok ⟨AA.n_cols, BB.n_cols, fun i j => (tmp1.transpose * tmp2) i j / norm_val AA.n_rows⟩
  else .error .logic_error

/-- The function `arma::cov(A)`: the sample covariance matrix of the columns of `A`. -/
def cov (A : Mat α) : Mat α :=
  if A.n_elem = 0 then ⟨0, 0, fun i _ => i.elim0⟩
  else
    let AA := asObservations A
    let ma := mean AA
    let tmp : Matrix (Fin AA.n_rows) (Fin AA.n_cols) α := fun i j => AA.mem i j - ma.elem 0 j
    ⟨AA.n_cols, AA.n_cols, fun i j => (tmp.transpose * tmp) i j / norm_val AA.n_rows⟩

/-- The member `shed_col(j)`: the matrix without its column `j`. -/
def shed_col : Mat α → ℕ → Except Err (Mat α)
  | ⟨_, 0, _⟩, _ => .error .logic_error
  | ⟨r, c + 1, M⟩, j =>
    if h : j < c + 1 then .ok ⟨r, c, fun i k => M i (Fin.succAbove ⟨j, h⟩ k)⟩
    else .error .logic_error

/-- The member `shed_row(j)`: the matrix without its row `j`. -/
def shed_row : Mat α → ℕ → Except Err (Mat α)
  | ⟨0, _, _⟩, _ => .error .logic_error
  | ⟨r + 1, c, M⟩, j =>
    if h : j < r + 1 then .ok ⟨r, c, fun k i => M (Fin.succAbove ⟨j, h⟩ k) i⟩
    else .error .logic_error

/-- The scan of `index_min`: `best_idx` holds the position of the least value seen so
far, and only a strictly smaller value replaces it. -/
def index_min_scan (best_val : IEEE α) (best_idx : ℕ) : ℕ → List (IEEE α) → ℕ
  | _, [] => best_idx
  | i, x :: xs =>
    if IEEE.lt x best_val then index_min_scan x i (i + 1) xs
    else index_min_scan best_val best_idx (i + 1) xs

/-- The function `arma::index_min`: an object without elements is a logic error;
otherwise the entries are scanned in memory order, starting from the value `+inf` and
the position `0`, and the position of the first least entry is reported.  An entry that
is NaN is never less than the value held, so it is passed over. -/
def index_min (A : Mat (IEEE α)) : Except Err ℕ :=
  match A.elems with
  | [] => .error .logic_error
  | x :: xs => .ok (index_min_scan .inf 0 0 (x :: xs))

/-- The element access `A(i)` by position in memory order, bounds checked. -/
def get {β : Type} (A : Mat β) (i : ℕ) : Except Err β :=
  match A.elems[i]? with
  | some x => .ok x
  | none => .error .logic_error

end Mat

open Mat

variable {α : Type} [LinearOrderedField α]

/-- The function `FMFRPCpp` (frp.cpp, lines 73-84). -/
def FMFRPCpp (beta mean_returns : Mat α) : Except Err (Mat α) := do
  let gram ← mul beta.t beta
  let a ← solve gram beta.t
  mul a mean_returns

/-- The function `KRSFRPCpp` (frp.cpp, lines 89-107). -/
def KRSFRPCpp (beta mean_returns weighting_matrix : Mat α) : Except Err (Mat α) := do
  let beta_t_wei_mat_inv := (← solve weighting_matrix beta).t
  let lhs ← mul beta_t_wei_mat_inv beta
  let a ← solve lhs beta_t_wei_mat_inv
  mul a mean_returns

/-- The function `StandardErrorsFRPCpp` (frp.cpp, lines 167-220); the HAC primitive
`HACStandardErrorsCpp` is an argument. -/
def StandardErrorsFRPCpp (HACStandardErrorsCpp : Mat α → Except Err (Mat α))
    (frp returns factors beta _covariance_factors_returns _variance_returns
      mean_returns : Mat α) : Except Err (Mat α) := do
  let h_matrix ← inv_sympd (← mul beta.t beta)
  let a_matrix ← mul h_matrix beta.t
  let returns_centred ← each_row_sub returns mean_returns.t
  let mean_factors := (mean factors).t
  let factors_centred ← each_row_sub factors mean_factors.t
  let gamma ← mul returns_centred a_matrix.t
  let gamma_true ← mul a_matrix mean_returns
  let phi ← sub gamma factors
  let phi_centred ← each_row_sub phi (← sub gamma_true mean_factors).t
  let variance_factors := cov factors
  let fac_centred_var_fac_inv := (← solve variance_factors factors_centred.t).t
  let _z ← each_col_schur fac_centred_var_fac_inv
    (← mul returns_centred (← sub mean_returns (← mul beta frp)))
  let mean_term ← each_row_sub gamma (← mul a_matrix mean_returns).t
  let beta_term ← each_col_schur phi_centred
    (← mul factors_centred (← solve variance_factors gamma_true))
  let error_term ← mul
    (← each_col_schur fac_centred_var_fac_inv
      (← mul returns_centred (← sub mean_returns (← mul beta frp))))
    h_matrix
  HACStandardErrorsCpp (← add (← sub mean_term beta_term) error_term)

/-- The function `StandardErrorsKRSFRPCpp` (frp.cpp, lines 225-285); the HAC primitive
`HACStandardErrorsCpp` is an argument. -/
def StandardErrorsKRSFRPCpp (HACStandardErrorsCpp : Mat α → Except Err (Mat α))
    (krs_frp returns factors beta _covariance_factors_returns variance_returns
      mean_returns : Mat α) : Except Err (Mat α) := do
  let var_ret_inv_beta ← solve variance_returns beta
  let a_matrix ← solve (← mul beta.t var_ret_inv_beta) var_ret_inv_beta.t
  let returns_centred ← each_row_sub returns mean_returns.t
  let factors_centred ← each_row_sub factors (mean factors)
  let term1 ← mul returns_centred a_matrix.t
  let var_ret_inv_mean_ret ← solve variance_returns mean_returns
  let var_fac_inv ← inv_sympd (cov factors)
  let hkrs_var_fac_inv ← solve (← mul beta.t var_ret_inv_beta) var_fac_inv
  let var_ret_inv_err_krs ← sub var_ret_inv_mean_ret (← mul var_ret_inv_beta krs_frp)
  let fac_cen_hkrs_var_fac_inv ← mul factors_centred hkrs_var_fac_inv.t
  let term2 ← each_col_schur fac_cen_hkrs_var_fac_inv
    (← mul returns_centred var_ret_inv_err_krs)
  let term3 ← each_col_schur term1 (← mul returns_centred var_ret_inv_err_krs)
  let akrs_ret_cen_minus_fac_cen ← sub term1 factors_centred
  let term4 ← each_col_schur akrs_ret_cen_minus_fac_cen
    (← mul (← mul (← mul factors_centred var_fac_inv) a_matrix) mean_returns)
  HACStandardErrorsCpp (← sub (← sub (← add term1 term2) term3) term4)

/-- The local `beta` of `FRPCpp` (frp.cpp, lines 22-26 and 57-61):
`solve(cov(factors), cov(factors, returns)).t()`. -/
def FRPCpp_beta (returns factors : Mat α) : Except Err (Mat α) := do
  let covariance_factors_returns ← cov2 factors returns
  return (← solve (cov factors) covariance_factors_returns).t

/-- The list `FRPCpp` returns: `risk_premia` and, when asked for, `standard_errors`. -/
structure FRPResult (α : Type) where
  risk_premia : Mat α
  standard_errors : Option (Mat α)

/-- The function `FRPCpp` (frp.cpp, lines 9-71). -/
def FRPCpp (HACStandardErrorsCpp : Mat α → Except Err (Mat α))
    (returns factors : Mat α) (misspecification_robust include_standard_errors : Bool) :
    Except Err (FRPResult α) :=
  if include_standard_errors then do
    let covariance_factors_returns ← cov2 factors returns
    let variance_returns := cov returns
    let mean_returns := (mean returns).t
    let beta := (← solve (cov factors) covariance_factors_returns).t
    let frp ←
      if misspecification_robust then KRSFRPCpp beta mean_returns variance_returns
      else FMFRPCpp beta mean_returns
    let se ←
      if misspecification_robust then
        StandardErrorsKRSFRPCpp HACStandardErrorsCpp frp returns factors beta
          covariance_factors_returns variance_returns mean_returns
      else
        StandardErrorsFRPCpp HACStandardErrorsCpp frp returns factors beta
          covariance_factors_returns variance_returns mean_returns
    return ⟨frp, some se⟩
  else do
    let beta ← FRPCpp_beta returns factors
    let frp ←
      if misspecification_robust then KRSFRPCpp beta (mean returns).t (cov returns)
      else FMFRPCpp beta (mean returns).t
    return ⟨frp, none⟩

/-- The call `kept_factors.erase(kept_factors.begin() + i)` on a `std::vector`: the
element at position `i` is removed and the others keep their order; a position past
the end is undefined behaviour. -/
def erase (kept_factors : List ℕ) (i : ℕ) : Except Err (List ℕ) :=
  if i < kept_factors.length then .ok (kept_factors.eraseIdx i)
  else .error .undefined_behaviour

/-- The working copies of `IterativeKRSFRPCpp` (frp.cpp, lines 124-126) and the list
`kept_factors` (lines 134-135). -/
structure Work (α : Type) where
  factors_ : Mat α
  beta_ : Mat α
  covariance_factors_returns_ : Mat α
  kept_factors : List ℕ

/-- What one pass through the loop body does: return `kept_factors`, or go on with
the reduced working copies. -/
inductive Step (α : Type) where
  | stop (kept_factors : List ℕ)
  | next (w : Work α)

/-- The local `bonferroni_constant` of `IterativeKRSFRPCpp` (frp.cpp, line 129). -/
def bonferroni_constant (mean_returns : Mat α) : ℕ := mean_returns.n_elem

/-- The local `critical_value` of `IterativeKRSFRPCpp` (frp.cpp, lines 131-132);
`qnorm` stands for `R::qnorm(p, 0.0, 1.0, true, false)`, the standard normal
quantile. -/
def critical_value (qnorm : α → α) (mean_returns : Mat α) (alpha : α) : α :=
  qnorm (1 - alpha / ((2 * bonferroni_constant mean_returns : ℕ) : α))

/-- The body of the `while` loop of `IterativeKRSFRPCpp` (frp.cpp, lines 138-157). -/
def IterativeKRSFRPCpp_body (HACStandardErrorsCpp : Mat α → Except Err (Mat α))
    (returns variance_returns mean_returns weighting_matrix : Mat α) (critical_value : α)
    (w : Work α) : Except Err (Step α) := do
  let frp ← KRSFRPCpp w.beta_ mean_returns weighting_matrix
  let se ← StandardErrorsKRSFRPCpp HACStandardErrorsCpp frp returns w.factors_ w.beta_
    w.covariance_factors_returns_ variance_returns mean_returns
  let t_statistics ← div frp se
  let factor_to_remove ← index_min (abs t_statistics)
  if IEEE.lt (.num critical_value) (← get t_statistics factor_to_remove).abs then
    return .stop w.kept_factors
  else
    let kept_factors ← erase w.kept_factors factor_to_remove
    let factors_ ← shed_col w.factors_ factor_to_remove
    let beta_ ← shed_col w.beta_ factor_to_remove
    let covariance_factors_returns_ ← shed_row w.covariance_factors_returns_ factor_to_remove
    return .next ⟨factors_, beta_, covariance_factors_returns_, kept_factors⟩

/-- The `while (number_of_factors > 0)` loop of `IterativeKRSFRPCpp` (frp.cpp, lines
137-161), by recursion on `number_of_factors`; leaving the loop returns the empty
vector. -/
def IterativeKRSFRPCpp_loop (HACStandardErrorsCpp : Mat α → Except Err (Mat α))
    (returns variance_returns mean_returns weighting_matrix : Mat α) (critical_value : α) :
    ℕ → Work α → Except Err (List ℕ)
  | 0, _ => .ok []
  | number_of_factors + 1, w =>
    match IterativeKRSFRPCpp_body HACStandardErrorsCpp returns variance_returns mean_returns
        weighting_matrix critical_value w with
    | .error e => .error e
    | .ok (.stop kept_factors) => .ok kept_factors
    | .ok (.next w') =>
      IterativeKRSFRPCpp_loop HACStandardErrorsCpp returns variance_returns mean_returns
        weighting_matrix critical_value number_of_factors w'

/-- The state in which `IterativeKRSFRPCpp` enters its loop (frp.cpp, lines 124-135). -/
def IterativeKRSFRPCpp_init (factors beta covariance_factors_returns : Mat α) : Work α :=
  ⟨factors, beta, covariance_factors_returns, List.range factors.n_cols⟩

/-- The function `IterativeKRSFRPCpp` (frp.cpp, lines 112-163).  The vector returned is
given as the list of its entries. -/
def IterativeKRSFRPCpp (qnorm : α → α) (HACStandardErrorsCpp : Mat α → Except Err (Mat α))
    (returns factors beta covariance_factors_returns variance_returns mean_returns
      weighting_matrix : Mat α) (alpha : α) : Except Err (List ℕ) :=
  let number_of_factors := mean_returns.n_elem
  IterativeKRSFRPCpp_loop HACStandardErrorsCpp returns variance_returns mean_returns
    weighting_matrix (critical_value qnorm mean_returns alpha) number_of_factors
    (IterativeKRSFRPCpp_init factors beta covariance_factors_returns)

/-- The working copies with which the pass number `i` of the loop (counted from `0`)
starts when the loop is entered with `w`, provided every earlier pass ended by going
on; `none` when an earlier pass returned or failed. -/
def IterativeKRSFRPCpp_state (HACStandardErrorsCpp : Mat α → Except Err (Mat α))
    (returns variance_returns mean_returns weighting_matrix : Mat α) (critical_value : α) :
    ℕ → Work α → Option (Work α)
  | 0, w => some w
  | i + 1, w =>
    match IterativeKRSFRPCpp_body HACStandardErrorsCpp returns variance_returns mean_returns
        weighting_matrix critical_value w with
    | .ok (.next w') =>
      IterativeKRSFRPCpp_state HACStandardErrorsCpp returns variance_returns mean_returns
        weighting_matrix critical_value i w'
    | _ => none

/-- The columns of `A` at the positions `idx`, in the order of `idx`. -/
def select_cols (A : Mat α) (idx : List ℕ) : Mat α :=
  ⟨A.n_rows, idx.length, fun i k => A.elem i (idx.get k)⟩

/-- The rows of `A` at the positions `idx`, in the order of `idx`. -/
def select_rows (A : Mat α) (idx : List ℕ) : Mat α :=
  ⟨idx.length, A.n_cols, fun k j => A.elem (idx.get k) j⟩

/-- Equality of matrices is decidable: the extents are compared, then the entries. -/
instance instDecidableEqMat {β : Type} [DecidableEq β] : DecidableEq (Mat β) := fun A B =>
  if h : A.n_rows = B.n_rows ∧ A.n_cols = B.n_cols then
    decidable_of_iff (∀ i j, A.mem i j = B.mem (Fin.cast h.1 i) (Fin.cast h.2 j)) (by
      obtain ⟨r, c, M⟩ := A
      obtain ⟨r', c', M'⟩ := B
      obtain ⟨h1, h2⟩ := h
      simp only at h1 h2
      subst h1
      subst h2
      simp only [Fin.cast_eq_self, Mat.mk.injEq, heq_eq_eq, true_and]
      constructor
      · intro h; ext i j; exact h i j
      · intro h i j; rw [h])
  else isFalse (by rintro rfl; exact h ⟨rfl, rfl⟩)

/-- Equality of results is decidable. -/
instance instDecidableEqExcept {ε β : Type} [DecidableEq ε] [DecidableEq β] :
    DecidableEq (Except ε β)
  | .ok a, .ok b => decidable_of_iff (a = b) (by simp)
  | .error a, .error b => decidable_of_iff (a = b) (by simp)
  | .ok _, .error _ => isFalse (by simp)
  | .error _, .ok _ => isFalse (by simp)

/-! ## Concrete inputs

Small panels over the rationals, on which the definitions above are evaluated. -/

/-- Loadings of three assets on two factors. -/
def beta_3x2 : Matrix (Fin 3) (Fin 2) ℚ := !![1, 0; 0, 1; 1, 1]

/-- A positive definite weighting matrix for three assets. -/
def weights_3x3 : Matrix (Fin 3) (Fin 3) ℚ := !![2, 1, 0; 1, 2, 0; 0, 0, 1]

/-- A panel of four periods: two factors whose columns are correlated. -/
def panel_factors : Mat ℚ := ofMatrix !![1, 1; 0, 1; -1, -1; 0, -1]

/-- The first factor of `panel_factors` alone. -/
def panel_factor_one : Mat ℚ := ofMatrix !![1; 0; -1; 0]

/-- Returns of two assets over the four periods: `r₀ = 1 + f₀ + f₁` and `r₁ = f₁`. -/
def panel_returns : Mat ℚ := ofMatrix !![3, 1; 2, 1; -1, -1; 0, -1]

/-- The loadings of `panel_returns` on `panel_factors`. -/
def panel_beta : Mat ℚ := ofMatrix !![1, 1; 0, 1]

/-- The loadings of `panel_returns` on `panel_factor_one`. -/
def panel_beta_one : Mat ℚ := ofMatrix !![2; 1]

/-- The covariance of `panel_factors` with `panel_returns`. -/
def panel_covariance_factors_returns : Mat ℚ := ofMatrix !![4/3, 2/3; 2, 4/3]

/-- The covariance of `panel_factor_one` with `panel_returns`. -/
def panel_covariance_factor_one_returns : Mat ℚ := ofMatrix !![4/3, 2/3]

/-- The mean returns of `panel_returns`. -/
def panel_mean_returns : Mat ℚ := ofCol ![1, 0]

/-- The covariance matrix of `panel_returns`. -/
def panel_variance_returns : Mat ℚ := ofMatrix !![10/3, 2; 2, 4/3]

/-- A stand-in for the HAC primitive: the standard error `1` for every column. -/
def unit_standard_errors : Mat ℚ → Except Err (Mat ℚ) :=
  fun terms => .ok ⟨terms.n_cols, 1, fun _ _ => 1⟩

/-- Another stand-in for the HAC primitive, which like a long-run standard deviation
is not negative and is `0` for a column of zeros: the mean absolute value of every
column. -/
def mean_abs_standard_errors : Mat ℚ → Except Err (Mat ℚ) :=
  fun terms => .ok ⟨terms.n_cols, 1, fun j _ => (∑ i, |terms.mem i j|) / (terms.n_rows : ℚ)⟩

/-- Returns of two assets over four periods, of which the first asset always returns
`0`; the column means are `(0, 5)`. -/
def zero_asset_returns : Mat ℚ := ofMatrix !![0, 5; 0, 5; 0, 6; 0, 4]

/-- Two factors over four periods that are never both different from `0`. -/
def disjoint_factors : Mat ℚ := ofMatrix !![1, 0; -1, 0; 0, 1; 0, -1]

/-- The identity matrix with two rows. -/
def identity_2x2 : Mat ℚ := ofMatrix !![1, 0; 0, 1]

/-- The standard normal quantile, to four digits, at the probabilities the examples
use: `0.5`, `0.75`, `0.975` and `0.9875`. -/
def qnorm_table (p : ℚ) : ℚ :=
  if p = 1/2 then 0
  else if p = 3/4 then 6745/10000
  else if p = 39/40 then 19600/10000
  else if p = 79/80 then 22414/10000
  else 0

/-- Returns of one asset over three periods. -/
def single_asset_returns : Mat ℚ := ofMatrix !![1; 3; 2]

/-- A panel with a single row and three columns, handed over as the factors. -/
def single_row_factors : Mat ℚ := ofMatrix !![1, 2, 4]

/-- A factor observed over three periods only. -/
def short_factor : Mat ℚ := ofMatrix !![1; 0; -1]

/-! ## Sample moments and the terms of the standard errors -/

/-- The sample mean of every column of a panel. -/
def sample_mean {T n : ℕ} (X : Matrix (Fin T) (Fin n) α) : Fin n → α :=
  fun j => (∑ i, X i j) / (T : α)

/-- A panel less the sample mean of every column. -/
def centred {T n : ℕ} (X : Matrix (Fin T) (Fin n) α) : Matrix (Fin T) (Fin n) α :=
  fun i j => X i j - sample_mean X j

/-- The sample covariance of the columns of `X` with the columns of `Y`, normalised by the
number of observations less one. -/
def sample_covariance {T K N : ℕ} (X : Matrix (Fin T) (Fin K) α) (Y : Matrix (Fin T) (Fin N) α) :
    Matrix (Fin K) (Fin N) α :=
  fun i j => ((centred X).transpose * centred Y) i j / norm_val T

/-- Locals of `StandardErrorsFRPCpp`: `a_matrix`, `gamma` and the three terms of the
argument of the HAC primitive. -/
structure StandardErrorsFRPCppLocals (α : Type) where
  a_matrix : Mat α
  gamma : Mat α
  mean_term : Mat α
  beta_term : Mat α
  error_term : Mat α

/-- The body of `StandardErrorsFRPCpp` (frp.cpp, lines 177-217) up to the three terms of
the argument of the HAC primitive. -/
def StandardErrorsFRPCpp_locals
    (frp returns factors beta _covariance_factors_returns _variance_returns
      mean_returns : Mat α) : Except Err (StandardErrorsFRPCppLocals α) := do
  let h_matrix ← inv_sympd (← mul beta.t beta)
  let a_matrix ← mul h_matrix beta.t
  let returns_centred ← each_row_sub returns mean_returns.t
  let mean_factors := (mean factors).t
  let factors_centred ← each_row_sub factors mean_factors.t
  let gamma ← mul returns_centred a_matrix.t
  let gamma_true ← mul a_matrix mean_returns
  let phi ← sub gamma factors
  let phi_centred ← each_row_sub phi (← sub gamma_true mean_factors).t
  let variance_factors := cov factors
  let fac_centred_var_fac_inv := (← solve variance_factors factors_centred.t).t
  let _z ← each_col_schur fac_centred_var_fac_inv
    (← mul returns_centred (← sub mean_returns (← mul beta frp)))
  let mean_term ← each_row_sub gamma (← mul a_matrix mean_returns).t
  let beta_term ← each_col_schur phi_centred
    (← mul factors_centred (← solve variance_factors gamma_true))
  let error_term ← mul
    (← each_col_schur fac_centred_var_fac_inv
      (← mul returns_centred (← sub mean_returns (← mul beta frp))))
    h_matrix
  return ⟨a_matrix, gamma, mean_term, beta_term, error_term⟩

/-- Locals of `StandardErrorsKRSFRPCpp`: the pricing errors `var_ret_inv_err_krs` and the
four terms of the argument of the HAC primitive. -/
structure StandardErrorsKRSFRPCppLocals (α : Type) where
  var_ret_inv_err_krs : Mat α
  term1 : Mat α
  term2 : Mat α
  term3 : Mat α
  term4 : Mat α

/-- The body of `StandardErrorsKRSFRPCpp` (frp.cpp, lines 235-281) up to the four terms of
the argument of the HAC primitive. -/
def StandardErrorsKRSFRPCpp_locals
    (krs_frp returns factors beta _covariance_factors_returns variance_returns
      mean_returns : Mat α) : Except Err (StandardErrorsKRSFRPCppLocals α) := do
  let var_ret_inv_beta ← solve variance_returns beta
  let a_matrix ← solve (← mul beta.t var_ret_inv_beta) var_ret_inv_beta.t
  let returns_centred ← each_row_sub returns mean_returns.t
  let factors_centred ← each_row_sub factors (mean factors)
  let term1 ← mul returns_centred a_matrix.t
  let var_ret_inv_mean_ret ← solve variance_returns mean_returns
  let var_fac_inv ← inv_sympd (cov factors)
  let hkrs_var_fac_inv ← solve (← mul beta.t var_ret_inv_beta) var_fac_inv
  let var_ret_inv_err_krs ← sub var_ret_inv_mean_ret (← mul var_ret_inv_beta krs_frp)
  let fac_cen_hkrs_var_fac_inv ← mul factors_centred hkrs_var_fac_inv.t
  let term2 ← each_col_schur fac_cen_hkrs_var_fac_inv
    (← mul returns_centred var_ret_inv_err_krs)
  let term3 ← each_col_schur term1 (← mul returns_centred var_ret_inv_err_krs)
  let akrs_ret_cen_minus_fac_cen ← sub term1 factors_centred
  let term4 ← each_col_schur akrs_ret_cen_minus_fac_cen
    (← mul (← mul (← mul factors_centred var_fac_inv) a_matrix) mean_returns)
  return ⟨var_ret_inv_err_krs, term1, term2, term3, term4⟩

/-- The argument of the HAC primitive in `StandardErrorsKRSFRPCpp` (frp.cpp, line 283):
`term1 + term2 - term3 - term4`. -/
def StandardErrorsKRSFRPCpp_terms
    (krs_frp returns factors beta covariance_factors_returns variance_returns
      mean_returns : Mat α) : Except Err (Mat α) := do
  let l ← StandardErrorsKRSFRPCpp_locals krs_frp returns factors beta
    covariance_factors_returns variance_returns mean_returns
  sub (← sub (← add l.term1 l.term2) l.term3) l.term4

/-! ## The estimators on statically sized matrices -/

open Matrix

/-- The inverse by the adjugate is the matrix inverse. -/
theorem Mat.inverse_eq_inv {n : ℕ} (M : Matrix (Fin n) (Fin n) α) : Mat.inverse M = M⁻¹ := by
  rw [Mat.inverse, Matrix.inv_def, Ring.inverse_eq_inv']

/-- The transpose of a statically sized matrix. -/
theorem Mat.t_ofMatrix {r c : ℕ} (M : Matrix (Fin r) (Fin c) α) :
    (ofMatrix M).t = ofMatrix Mᵀ := rfl

/-- The product of statically sized matrices whose extents fit. -/
theorem Mat.mul_ofMatrix {r k c : ℕ} (A : Matrix (Fin r) (Fin k) α)
    (B : Matrix (Fin k) (Fin c) α) : mul (ofMatrix A) (ofMatrix B) = .ok (ofMatrix (A * B)) := by
  simp [mul, ofMatrix]

/-- The solution of a regular statically sized system. -/
theorem Mat.solve_ofMatrix {n c : ℕ} (A : Matrix (Fin n) (Fin n) α)
    (B : Matrix (Fin n) (Fin c) α) (h : A.det ≠ 0) :
    solve (ofMatrix A) (ofMatrix B) = .ok (ofMatrix (A⁻¹ * B)) := by
  simp [solve, ofMatrix, h, Mat.inverse_eq_inv]

/-- A vector is the matrix of its single column. -/
theorem Mat.ofCol_eq {n : ℕ} (v : Fin n → α) : ofCol v = ofMatrix (Matrix.col (Fin 1) v) := rfl

/-- The closed form of `FMFRPCpp` when the Gram matrix of the loadings is invertible. -/
theorem FMFRPCpp_ofMatrix {N K : ℕ} (beta : Matrix (Fin N) (Fin K) α)
    (m : Matrix (Fin N) (Fin 1) α) (h : (betaᵀ * beta).det ≠ 0) :
    FMFRPCpp (ofMatrix beta) (ofMatrix m) = .ok (ofMatrix ((betaᵀ * beta)⁻¹ * betaᵀ * m)) := by
  simp [FMFRPCpp, Mat.t_ofMatrix, Mat.mul_ofMatrix, Mat.solve_ofMatrix _ _ h, bind, Except.bind]

/-- The closed form of `KRSFRPCpp` when both systems it solves are regular. -/
theorem KRSFRPCpp_ofMatrix {N K : ℕ} (beta : Matrix (Fin N) (Fin K) α)
    (m : Matrix (Fin N) (Fin 1) α) (W : Matrix (Fin N) (Fin N) α) (hW : W.det ≠ 0)
    (hH : ((W⁻¹ * beta)ᵀ * beta).det ≠ 0) :
    KRSFRPCpp (ofMatrix beta) (ofMatrix m) (ofMatrix W) =
      .ok (ofMatrix (((W⁻¹ * beta)ᵀ * beta)⁻¹ * (W⁻¹ * beta)ᵀ * m)) := by
  simp only [KRSFRPCpp, Mat.t_ofMatrix, Mat.mul_ofMatrix, Mat.solve_ofMatrix _ _ hW,
    Mat.solve_ofMatrix _ _ hH, bind, Except.bind]

/-- Full column rank says that the loadings, as a linear map, are injective. -/
theorem mulVec_injective_of_rank {N K : ℕ} (beta : Matrix (Fin N) (Fin K) α)
    (h : beta.rank = K) : Function.Injective beta.mulVec := by
  have hker : Module.finrank α (LinearMap.ker beta.mulVecLin) = 0 := by
    have h1 := LinearMap.finrank_range_add_finrank_ker beta.mulVecLin
    rw [Module.finrank_fin_fun] at h1
    have h2 : Module.finrank α (LinearMap.range beta.mulVecLin) = K := h
    omega
  have hbot : LinearMap.ker beta.mulVecLin = ⊥ := Submodule.finrank_eq_zero.mp hker
  exact LinearMap.ker_eq_bot.mp hbot

/-- Injective loadings have full column rank. -/
theorem rank_of_mulVec_injective {N K : ℕ} (beta : Matrix (Fin N) (Fin K) α)
    (h : Function.Injective beta.mulVec) : beta.rank = K := by
  have h1 : Module.finrank α (LinearMap.range beta.mulVecLin) = Module.finrank α (Fin K → α) :=
    LinearMap.finrank_range_of_inj h
  rw [Module.finrank_fin_fun] at h1
  exact h1

/-- The Gram matrix of loadings of full column rank is invertible. -/
theorem gram_det_ne_zero {N K : ℕ} (beta : Matrix (Fin N) (Fin K) α) (h : beta.rank = K) :
    (betaᵀ * beta).det ≠ 0 := by
  have hinj := mulVec_injective_of_rank beta h
  intro hdet
  obtain ⟨v, hv, hv0⟩ := Matrix.exists_mulVec_eq_zero_iff.mpr hdet
  apply hv
  apply hinj
  rw [Matrix.mulVec_zero]
  have h0 : (beta *ᵥ v) ⬝ᵥ (beta *ᵥ v) = 0 := by
    have : v ⬝ᵥ ((betaᵀ * beta) *ᵥ v) = 0 := by rw [hv0, Matrix.dotProduct_zero]
    rwa [← Matrix.mulVec_mulVec, Matrix.dotProduct_mulVec, Matrix.vecMul_transpose] at this
  exact Matrix.dotProduct_self_eq_zero.mp h0

/-- An invertible Gram matrix means full column rank. -/
theorem rank_of_gram_det_ne_zero {N K : ℕ} (beta : Matrix (Fin N) (Fin K) α)
    (h : (betaᵀ * beta).det ≠ 0) : beta.rank = K := by
  apply rank_of_mulVec_injective
  intro x y hxy
  have hu : IsUnit (betaᵀ * beta).det := isUnit_iff_ne_zero.mpr h
  have h2 : (betaᵀ * beta) *ᵥ x = (betaᵀ * beta) *ᵥ y := by
    simp only [← Matrix.mulVec_mulVec]
    exact congrArg _ hxy
  have h3 := congrArg (fun z => (betaᵀ * beta)⁻¹ *ᵥ z) h2
  simpa [Matrix.mulVec_mulVec, Matrix.nonsing_inv_mul _ hu] using h3

/-- A positive definite matrix is invertible. -/
theorem det_ne_zero_of_posdef {N : ℕ} (W : Matrix (Fin N) (Fin N) α)
    (hpd : ∀ x : Fin N → α, x ≠ 0 → 0 < x ⬝ᵥ W *ᵥ x) : W.det ≠ 0 := by
  intro hdet
  obtain ⟨v, hv, hv0⟩ := Matrix.exists_mulVec_eq_zero_iff.mpr hdet
  have := hpd v hv
  rw [hv0, Matrix.dotProduct_zero] at this
  exact lt_irrefl _ this

/-- The inverse of a symmetric positive definite matrix is positive semidefinite. -/
theorem inv_posSemidef {N : ℕ} (W : Matrix (Fin N) (Fin N) α)
    (hpd : ∀ x : Fin N → α, x ≠ 0 → 0 < x ⬝ᵥ W *ᵥ x) (y : Fin N → α) :
    0 ≤ y ⬝ᵥ W⁻¹ *ᵥ y ∧ (y ⬝ᵥ W⁻¹ *ᵥ y = 0 → y = 0) := by
  have hu : IsUnit W.det := isUnit_iff_ne_zero.mpr (det_ne_zero_of_posdef W hpd)
  have hy : y = W *ᵥ (W⁻¹ *ᵥ y) := by
    rw [Matrix.mulVec_mulVec, Matrix.mul_nonsing_inv _ hu, Matrix.one_mulVec]
  have key : y ⬝ᵥ W⁻¹ *ᵥ y = (W⁻¹ *ᵥ y) ⬝ᵥ W *ᵥ (W⁻¹ *ᵥ y) := by
    rw [← hy, Matrix.dotProduct_comm]
  by_cases hz : W⁻¹ *ᵥ y = 0
  · have : y = 0 := by rw [hy, hz, Matrix.mulVec_zero]
    subst this
    simp
  · have := hpd _ hz
    rw [key]
    exact ⟨this.le, fun h0 => absurd h0 this.ne'⟩

/-- The matrix `A * beta` of `KRSFRPCpp` is invertible for a positive definite weighting
matrix and loadings of full column rank. -/
theorem krs_gram_det_ne_zero {N K : ℕ} (beta : Matrix (Fin N) (Fin K) α)
    (W : Matrix (Fin N) (Fin N) α)
    (hpd : ∀ x : Fin N → α, x ≠ 0 → 0 < x ⬝ᵥ W *ᵥ x) (hrank : beta.rank = K) :
    ((W⁻¹ * beta)ᵀ * beta).det ≠ 0 := by
  have hinj := mulVec_injective_of_rank beta hrank
  intro hdet
  obtain ⟨v, hv, hv0⟩ := Matrix.exists_mulVec_eq_zero_iff.mpr hdet
  apply hv
  apply hinj
  rw [Matrix.mulVec_zero]
  apply (inv_posSemidef W hpd (beta *ᵥ v)).2
  have h1 : v ⬝ᵥ (((W⁻¹ * beta)ᵀ * beta) *ᵥ v) = 0 := by rw [hv0, Matrix.dotProduct_zero]
  rw [← Matrix.mulVec_mulVec, Matrix.dotProduct_mulVec, Matrix.vecMul_transpose,
    ← Matrix.mulVec_mulVec, Matrix.dotProduct_comm] at h1
  exact h1

/-- The matrix `weights_3x3` is positive definite. -/
theorem weights_3x3_posdef (x : Fin 3 → ℚ) (hx : x ≠ 0) : 0 < x ⬝ᵥ weights_3x3 *ᵥ x := by
  have hne : x 0 ≠ 0 ∨ x 1 ≠ 0 ∨ x 2 ≠ 0 := by
    by_contra hcon
    push_neg at hcon
    apply hx
    ext i
    fin_cases i
    · exact hcon.1
    · exact hcon.2.1
    · exact hcon.2.2
  have hq : x ⬝ᵥ weights_3x3 *ᵥ x = x 0 ^ 2 + x 1 ^ 2 + (x 0 + x 1) ^ 2 + x 2 ^ 2 := by
    simp [weights_3x3, Matrix.dotProduct, Matrix.mulVec, Fin.sum_univ_three]
    ring
  rw [hq]
  rcases hne with h | h | h
  · have := pow_pos (abs_pos.mpr h) 2
    rw [sq_abs] at this
    nlinarith [sq_nonneg (x 1), sq_nonneg (x 0 + x 1), sq_nonneg (x 2)]
  · have := pow_pos (abs_pos.mpr h) 2
    rw [sq_abs] at this
    nlinarith [sq_nonneg (x 0), sq_nonneg (x 0 + x 1), sq_nonneg (x 2)]
  · have := pow_pos (abs_pos.mpr h) 2
    rw [sq_abs] at this
    nlinarith [sq_nonneg (x 0), sq_nonneg (x 0 + x 1), sq_nonneg (x 1)]

/-! ## The primitives used by the loop -/

/-- NaN is less than no double. -/
theorem IEEE.not_nan_lt (x : IEEE α) : ¬ IEEE.lt .nan x := by
  cases x <;> exact not_false

/-- No double is less than NaN. -/
theorem IEEE.not_lt_nan (x : IEEE α) : ¬ IEEE.lt x .nan := by
  cases x <;> exact not_false

/-- The double `+inf` is less than no double. -/
theorem IEEE.not_inf_lt (x : IEEE α) : ¬ IEEE.lt .inf x := by
  cases x <;> exact not_false

/-- No double is less than itself. -/
theorem IEEE.not_lt_self (x : IEEE α) : ¬ IEEE.lt x x := by
  cases x <;> simp [IEEE.lt]

/-- The comparison of doubles is transitive. -/
theorem IEEE.lt_of_lt_of_lt {x y z : IEEE α} (h1 : IEEE.lt x y) (h2 : IEEE.lt y z) :
    IEEE.lt x z := by
  cases x <;> cases y <;> cases z <;> simp only [IEEE.lt] at h1 h2 ⊢
  exact lt_trans h1 h2

/-- A double that is not less than a bound, and is not NaN, is greater than whatever is
less than the bound. -/
theorem IEEE.lt_of_lt_of_not_lt {x y b : IEEE α} (h1 : IEEE.lt x b) (h2 : ¬ IEEE.lt y b) :
    y = .nan ∨ IEEE.lt x y := by
  cases x <;> cases y <;> cases b <;>
    simp only [IEEE.lt, not_lt, not_true_eq_false, not_false_eq_true, or_true, or_false,
      false_or, true_or, reduceCtorEq] at h1 h2 ⊢
  exact lt_of_lt_of_le h1 h2

/-- The absolute value of a double is NaN only for NaN. -/
theorem IEEE.abs_eq_nan {x : IEEE α} (h : x.abs = .nan) : x = .nan := by
  cases x <;> first | rfl | cases h

/-- A quotient is NaN exactly when both numbers are zero. -/
theorem IEEE.div_eq_nan (a b : α) : IEEE.div a b = .nan ↔ a = 0 ∧ b = 0 := by
  unfold IEEE.div
  by_cases hb : b = 0
  · by_cases ha : a = 0
    · simp [ha, hb]
    · by_cases hp : 0 < a <;> simp [ha, hb, hp]
  · simp [hb]

/-- The quotient by a number that is not zero. -/
theorem IEEE.div_of_ne_zero (a : α) {b : α} (hb : b ≠ 0) : IEEE.div a b = .num (a / b) := by
  unfold IEEE.div
  rw [if_neg hb]

/-- The scan of `index_min` over the rest `xs` of a list `pre ++ xs`: when no entry of
`pre` is less than the value held, and that value is either the initial `+inf` at the
position `0` or the entry at the position held, before which every entry is NaN or
greater, then the same is true of the value and the position at the end of the scan,
for the whole list. -/
theorem index_min_scan_spec (xs pre : List (IEEE α)) (best_val : IEEE α) (best_idx : ℕ)
    (hmin : ∀ y ∈ pre, ¬ IEEE.lt y best_val)
    (hfirst : (best_val = .inf ∧ best_idx = 0) ∨
      (pre[best_idx]? = some best_val ∧
        ∀ k, k < best_idx → ∀ y, pre[k]? = some y → y = .nan ∨ IEEE.lt best_val y)) :
    ∃ v, (∀ y ∈ pre ++ xs, ¬ IEEE.lt y v) ∧
      ((v = .inf ∧ index_min_scan best_val best_idx pre.length xs = 0) ∨
        ((pre ++ xs)[index_min_scan best_val best_idx pre.length xs]? = some v ∧
          ∀ k, k < index_min_scan best_val best_idx pre.length xs →
            ∀ y, (pre ++ xs)[k]? = some y → y = .nan ∨ IEEE.lt v y)) := by
  induction xs generalizing pre best_val best_idx with
  | nil =>
    refine ⟨best_val, by simpa using hmin, ?_⟩
    simpa [index_min_scan] using hfirst
  | cons x xs ih =>
    have happ : pre ++ x :: xs = (pre ++ [x]) ++ xs := by simp
    have hlen : (pre ++ [x]).length = pre.length + 1 := by simp
    rw [index_min_scan]
    split_ifs with hx
    · have := ih (pre ++ [x]) x pre.length
        (by
          intro y hy
          rcases List.mem_append.mp hy with h | h
          · exact fun hyx => hmin y h (IEEE.lt_of_lt_of_lt hyx hx)
          · simp only [List.mem_singleton] at h
            rw [h]
            exact IEEE.not_lt_self x)
        (Or.inr ⟨by rw [List.getElem?_append_right (le_refl _)]; simp, by
          intro k hk y hy
          rw [List.getElem?_append_left hk] at hy
          exact IEEE.lt_of_lt_of_not_lt hx (hmin y (List.getElem?_mem hy))⟩)
      rw [hlen, ← happ] at this
      exact this
    · have := ih (pre ++ [x]) best_val best_idx
        (by
          intro y hy
          rcases List.mem_append.mp hy with h | h
          · exact hmin y h
          · simp only [List.mem_singleton] at h
            rw [h]
            exact hx)
        (by
          rcases hfirst with h | ⟨h1, h2⟩
          · exact Or.inl h
          · have hlt : best_idx < pre.length := by
              by_contra hc
              rw [List.getElem?_eq_none (not_lt.mp hc)] at h1
              cases h1
            refine Or.inr ⟨by rw [List.getElem?_append_left hlt]; exact h1, ?_⟩
            intro k hk y hy
            rw [List.getElem?_append_left (by omega)] at hy
            exact h2 k hk y hy)
      rw [hlen, ← happ] at this
      exact this

/-- The position `index_min` reports: no entry is less than the entry there, and every
entry before it is NaN or greater. -/
theorem index_min_spec (A : Mat (IEEE α)) (j : ℕ) (h : index_min A = .ok j) :
    ∃ v, A.elems[j]? = some v ∧ (∀ y ∈ A.elems, ¬ IEEE.lt y v) ∧
      ∀ k, k < j → ∀ y, A.elems[k]? = some y → y = .nan ∨ IEEE.lt v y := by
  unfold index_min at h
  split at h
  · cases h
  · rename_i x xs heq
    simp only [Except.ok.injEq] at h
    have := index_min_scan_spec (x :: xs) [] .inf 0 (by simp) (Or.inl ⟨rfl, rfl⟩)
    simp only [List.length_nil, List.nil_append] at this
    rw [h] at this
    rw [heq]
    obtain ⟨v, hmin, ⟨hv, hj⟩ | ⟨hv, hfirst⟩⟩ := this
    · subst hv
      subst hj
      refine ⟨x, by simp, ?_, fun k hk => absurd hk (Nat.not_lt_zero k)⟩
      intro y hy
      have hy' := hmin y hy
      have hx' := hmin x (List.mem_cons_self x xs)
      cases y <;> cases x <;> simp only [IEEE.lt, not_true_eq_false, not_false_eq_true]
        at hy' hx' ⊢
    · exact ⟨v, hv, hmin, hfirst⟩

/-- The call `index_min` fails only on an object without elements. -/
theorem index_min_ok_of_ne_nil (A : Mat (IEEE α)) (h : A.elems ≠ []) :
    ∃ j, index_min A = .ok j := by
  unfold index_min
  split
  · rename_i heq; exact absurd heq h
  · exact ⟨_, rfl⟩

/-- The call `index_min` on an object without elements fails. -/
theorem index_min_error_of_nil (A : Mat (IEEE α)) (h : A.elems = []) :
    index_min A = .error .logic_error := by
  unfold index_min
  rw [h]

/-- Two matrices with the same extents and the same entries are equal. -/
theorem Mat.ext_elem {A B : Mat α} (hr : A.n_rows = B.n_rows) (hc : A.n_cols = B.n_cols)
    (h : ∀ i j, i < A.n_rows → j < A.n_cols → A.elem i j = B.elem i j) : A = B := by
  obtain ⟨r, c, M⟩ := A
  obtain ⟨r', c', M'⟩ := B
  simp only at hr hc
  subst hr hc
  congr
  ext i j
  have := h i j i.2 j.2
  simpa [Mat.elem] using this

/-- The entry of a matrix given by its parts. -/
theorem Mat.elem_mk (r c : ℕ) (M : Matrix (Fin r) (Fin c) α) (i j : ℕ) (hi : i < r)
    (hj : j < c) :
    (Mat.mk r c M).elem i j = M ⟨i, hi⟩ ⟨j, hj⟩ := by
  simp [Mat.elem, hi, hj]

/-- The entries of a matrix, as a list, are its entries. -/
theorem Mat.mem_elems {β : Type} (A : Mat β) (x : β) :
    x ∈ A.elems ↔ ∃ i j, A.mem i j = x := by
  unfold Mat.elems
  simp only [List.mem_flatMap, List.mem_map, List.mem_finRange, true_and]
  constructor
  · rintro ⟨j, i, h⟩; exact ⟨i, j, h⟩
  · rintro ⟨i, j, h⟩; exact ⟨j, i, h⟩

/-- The number of entries of a matrix. -/
theorem Mat.length_elems {β : Type} (A : Mat β) : A.elems.length = A.n_elem := by
  unfold Mat.elems Mat.n_elem
  rw [List.length_flatMap]
  simp [Function.comp_def, Nat.mul_comm]

/-- A matrix without rows has no entries. -/
theorem Mat.elems_eq_nil_of_n_rows {β : Type} (A : Mat β) (h : A.n_rows = 0) :
    A.elems = [] := by
  apply List.eq_nil_iff_forall_not_mem.mpr
  intro x hx
  obtain ⟨i, -, -⟩ := (Mat.mem_elems A x).mp hx
  exact (h ▸ i).elim0

/-- An entry within the extents is among the entries. -/
theorem Mat.elem_mem_elems (A : Mat α) (i j : ℕ) (hi : i < A.n_rows) (hj : j < A.n_cols) :
    A.elem i j ∈ A.elems := by
  rw [Mat.mem_elems]
  exact ⟨⟨i, hi⟩, ⟨j, hj⟩, by simp [Mat.elem, hi, hj]⟩

/-- The entries of `arma::abs`. -/
theorem Mat.mem_abs_elems (A : Mat (IEEE α)) (x : IEEE α) :
    x ∈ (Mat.abs A).elems ↔ ∃ y ∈ A.elems, x = y.abs := by
  rw [Mat.mem_elems]
  constructor
  · rintro ⟨i, j, h⟩
    exact ⟨A.mem i j, (Mat.mem_elems A _).mpr ⟨i, j, rfl⟩, h.symm⟩
  · rintro ⟨y, hy, rfl⟩
    obtain ⟨i, j, h⟩ := (Mat.mem_elems A y).mp hy
    exact ⟨i, j, by rw [← h]; rfl⟩

/-- The list of entries of `arma::abs`. -/
theorem Mat.abs_elems (A : Mat (IEEE α)) : (Mat.abs A).elems = A.elems.map IEEE.abs := by
  unfold Mat.elems Mat.abs
  simp only [List.map_flatMap, List.map_map]
  rfl

/-- The element access `A(i)`. -/
theorem get_ok {β : Type} {A : Mat β} {i : ℕ} {x : β} (h : Mat.get A i = .ok x) :
    A.elems[i]? = some x := by
  unfold Mat.get at h
  split at h
  · rename_i y hy
    simp only [Except.ok.injEq] at h
    rw [hy, h]
  · cases h

/-- When the entry `index_min` points at exceeds a bound in absolute value, every
entry that is not NaN does. -/
theorem all_exceed_of_index_min {t : Mat (IEEE α)} {j : ℕ} {tj : IEEE α} {crit : α}
    (h4 : index_min (Mat.abs t) = .ok j) (h5 : Mat.get t j = .ok tj)
    (h6 : IEEE.lt (.num crit) tj.abs) :
    ∀ x ∈ t.elems, x = .nan ∨ IEEE.lt (.num crit) x.abs := by
  obtain ⟨v, hv, hmin, -⟩ := index_min_spec _ _ h4
  have hj := get_ok h5
  rw [Mat.abs_elems, List.getElem?_map, hj] at hv
  simp only [Option.map_some', Option.some.injEq] at hv
  intro x hx
  have := hmin x.abs ((Mat.mem_abs_elems t _).mpr ⟨x, hx, rfl⟩)
  rw [← hv] at this
  rcases IEEE.lt_of_lt_of_not_lt h6 this with h | h
  · exact Or.inl (IEEE.abs_eq_nan h)
  · exact Or.inr h

/-- The extents of a product. -/
theorem mul_ok {A B X : Mat α} (h : mul A B = .ok X) :
    X.n_rows = A.n_rows ∧ X.n_cols = B.n_cols := by
  unfold mul at h
  split_ifs at h
  simp only [Except.ok.injEq] at h
  subst h
  exact ⟨rfl, rfl⟩

/-- The extents of a solution. -/
theorem solve_ok {A B X : Mat α} (h : solve A B = .ok X) :
    X.n_rows = A.n_rows ∧ X.n_cols = B.n_cols := by
  unfold solve at h
  simp only at h
  split_ifs at h
  simp only [Except.ok.injEq] at h
  subst h
  exact ⟨rfl, rfl⟩

/-- The premia `KRSFRPCpp` returns: one row for every column of `beta`. -/
theorem KRSFRPCpp_ok {beta mean_returns W frp : Mat α}
    (h : KRSFRPCpp beta mean_returns W = .ok frp) :
    frp.n_rows = beta.n_cols ∧ frp.n_cols = mean_returns.n_cols := by
  unfold KRSFRPCpp at h
  simp only [bind, Except.bind] at h
  split at h; · cases h
  rename_i s h1
  split at h; · cases h
  rename_i lhs h2
  split at h; · cases h
  rename_i a h3
  have e1 := solve_ok h1
  have e2 := mul_ok h2
  have e3 := solve_ok h3
  have e4 := mul_ok h
  refine ⟨?_, e4.2⟩
  rw [e4.1, e3.1, e2.1]
  exact e1.2

/-- The entrywise quotient: extents and entries. -/
theorem div_ok {A B : Mat α} {X : Mat (IEEE α)} (h : div A B = .ok X) :
    X.n_rows = A.n_rows ∧ X.n_cols = A.n_cols ∧ B.n_rows = A.n_rows ∧ B.n_cols = A.n_cols ∧
      ∀ i j, i < A.n_rows → j < A.n_cols → IEEE.div (A.elem i j) (B.elem i j) ∈ X.elems := by
  unfold div at h
  split_ifs at h with hs
  simp only [Except.ok.injEq] at h
  subst h
  refine ⟨rfl, rfl, hs.1.symm, hs.2.symm, ?_⟩
  intro i j hi hj
  rw [Mat.mem_elems]
  refine ⟨⟨i, hi⟩, ⟨j, hj⟩, ?_⟩
  simp only [Mat.elem, hi, hj, hs.1 ▸ hi, hs.2 ▸ hj, and_self, dite_true]
  rfl

/-- The result of `shed_col`. -/
theorem shed_col_ok {A A' : Mat α} {j : ℕ} (h : shed_col A j = .ok A') :
    j < A.n_cols ∧ A'.n_cols + 1 = A.n_cols ∧ A'.n_rows = A.n_rows ∧
      ∀ i k, i < A'.n_rows → k < A'.n_cols →
        A'.elem i k = A.elem i (if k < j then k else k + 1) := by
  obtain ⟨r, c, M⟩ := A
  cases c with
  | zero => simp [shed_col] at h
  | succ c =>
    simp only [shed_col] at h
    split_ifs at h with hj
    simp only [Except.ok.injEq] at h
    subst h
    refine ⟨hj, rfl, rfl, ?_⟩
    intro i k hi hk
    simp only at hi hk
    rw [Mat.elem_mk _ _ _ _ _ hi hk]
    by_cases hkj : k < j
    · rw [if_pos hkj, Mat.elem_mk _ _ _ _ _ hi (by omega)]
      congr 1
      rw [Fin.succAbove_of_castSucc_lt _ _ (by simpa [Fin.lt_def] using hkj)]
      rfl
    · rw [if_neg hkj, Mat.elem_mk _ _ _ _ _ hi (by omega)]
      congr 1
      rw [Fin.succAbove_of_le_castSucc _ _ (by simpa [Fin.le_def] using not_lt.mp hkj)]
      rfl

/-- The result of `shed_row`. -/
theorem shed_row_ok {A A' : Mat α} {j : ℕ} (h : shed_row A j = .ok A') :
    j < A.n_rows ∧ A'.n_rows + 1 = A.n_rows ∧ A'.n_cols = A.n_cols ∧
      ∀ k i, k < A'.n_rows → i < A'.n_cols →
        A'.elem k i = A.elem (if k < j then k else k + 1) i := by
  obtain ⟨r, c, M⟩ := A
  cases r with
  | zero => simp [shed_row] at h
  | succ r =>
    simp only [shed_row] at h
    split_ifs at h with hj
    simp only [Except.ok.injEq] at h
    subst h
    refine ⟨hj, rfl, rfl, ?_⟩
    intro k i hk hi
    simp only at hi hk
    rw [Mat.elem_mk _ _ _ _ _ hk hi]
    by_cases hkj : k < j
    · rw [if_pos hkj, Mat.elem_mk _ _ _ _ _ (by omega) hi]
      congr 1
      rw [Fin.succAbove_of_castSucc_lt _ _ (by simpa [Fin.lt_def] using hkj)]
      rfl
    · rw [if_neg hkj, Mat.elem_mk _ _ _ _ _ (by omega) hi]
      congr 1
      rw [Fin.succAbove_of_le_castSucc _ _ (by simpa [Fin.le_def] using not_lt.mp hkj)]
      rfl

/-- The entries of a selection of columns. -/
theorem select_cols_elem (A : Mat α) (idx : List ℕ) (i k : ℕ) (hi : i < A.n_rows)
    (hk : k < idx.length) : (select_cols A idx).elem i k = A.elem i idx[k] := by
  unfold select_cols
  rw [Mat.elem_mk _ _ _ _ _ hi hk]
  rfl

/-- The entries of a selection of rows. -/
theorem select_rows_elem (A : Mat α) (idx : List ℕ) (k i : ℕ) (hk : k < idx.length)
    (hi : i < A.n_cols) : (select_rows A idx).elem k i = A.elem idx[k] i := by
  unfold select_rows
  rw [Mat.elem_mk _ _ _ _ _ hk hi]
  rfl

/-- Shedding a column of a selection of columns is the selection without that
position. -/
theorem shed_col_select_cols (A X : Mat α) (idx : List ℕ) (j : ℕ)
    (h : shed_col (select_cols A idx) j = .ok X) : X = select_cols A (idx.eraseIdx j) := by
  obtain ⟨hj, hc, hr, hel⟩ := shed_col_ok h
  have hj' : j < idx.length := hj
  have hlen : (idx.eraseIdx j).length + 1 = idx.length := by
    rw [List.length_eraseIdx, if_pos hj']; omega
  have hc' : X.n_cols + 1 = idx.length := hc
  refine @Mat.ext_elem α _ X (select_cols A (idx.eraseIdx j)) hr
    (by show X.n_cols = (idx.eraseIdx j).length; omega) ?_
  intro i k hi hk
  have hr' : X.n_rows = A.n_rows := hr
  have h1 : (if k < j then k else k + 1) < idx.length := by split_ifs <;> omega
  have h2 : k < (idx.eraseIdx j).length := by omega
  rw [hel i k hi hk, select_cols_elem A idx i _ (by omega) h1,
    select_cols_elem A _ i k (by omega) h2, List.getElem_eraseIdx]
  split_ifs <;> rfl

/-- Shedding a row of a selection of rows is the selection without that position. -/
theorem shed_row_select_rows (A X : Mat α) (idx : List ℕ) (j : ℕ)
    (h : shed_row (select_rows A idx) j = .ok X) : X = select_rows A (idx.eraseIdx j) := by
  obtain ⟨hj, hr, hc, hel⟩ := shed_row_ok h
  have hj' : j < idx.length := hj
  have hlen : (idx.eraseIdx j).length + 1 = idx.length := by
    rw [List.length_eraseIdx, if_pos hj']; omega
  have hr' : X.n_rows + 1 = idx.length := hr
  refine @Mat.ext_elem α _ X (select_rows A (idx.eraseIdx j))
    (by show X.n_rows = (idx.eraseIdx j).length; omega) hc ?_
  intro k i hk hi
  have hc' : X.n_cols = A.n_cols := hc
  have h1 : (if k < j then k else k + 1) < idx.length := by split_ifs <;> omega
  have h2 : k < (idx.eraseIdx j).length := by omega
  rw [hel k i hk hi, select_rows_elem A idx _ i h1 (by omega),
    select_rows_elem A _ k i h2 (by omega), List.getElem_eraseIdx]
  split_ifs <;> rfl

/-- Selecting all columns in their order gives the matrix itself. -/
theorem select_cols_range (A : Mat α) (K : ℕ) (h : A.n_cols = K) :
    select_cols A (List.range K) = A := by
  refine @Mat.ext_elem α _ (select_cols A (List.range K)) A rfl (by simp [select_cols, h]) ?_
  intro i k hi hk
  have hk' : k < (List.range K).length := hk
  rw [select_cols_elem A (List.range K) i k hi hk']
  simp

/-- Selecting all rows in their order gives the matrix itself. -/
theorem select_rows_range (A : Mat α) (K : ℕ) (h : A.n_rows = K) :
    select_rows A (List.range K) = A := by
  refine @Mat.ext_elem α _ (select_rows A (List.range K)) A (by simp [select_rows, h]) rfl ?_
  intro k i hk hi
  have hk' : k < (List.range K).length := hk
  rw [select_rows_elem A (List.range K) k i hk' hi]
  simp

/-- The entries of a vector, in memory order. -/
theorem Mat.elems_ofCol {β : Type} {n : ℕ} (u : Fin n → β) :
    (ofCol u).elems = (List.finRange n).map u := by
  simp [Mat.elems, ofCol, List.finRange_succ_eq_map]

/-- The entrywise quotient of two vectors. -/
theorem div_ofCol {n : ℕ} (u v : Fin n → α) :
    div (ofCol u) (ofCol v) = .ok (ofCol (fun i => IEEE.div (u i) (v i))) := by
  unfold div
  have hs : (ofCol u).n_rows = (ofCol v).n_rows ∧ (ofCol u).n_cols = (ofCol v).n_cols :=
    ⟨rfl, rfl⟩
  rw [dif_pos hs]
  rfl

/-- The call `erase` succeeds only within the list, and removes that one position. -/
theorem erase_ok {l l' : List ℕ} {j : ℕ} (h : erase l j = .ok l') :
    j < l.length ∧ l' = l.eraseIdx j := by
  unfold erase at h
  split_ifs at h with hj
  simp only [Except.ok.injEq] at h
  exact ⟨hj, h.symm⟩

/-- Removing one position from a strictly increasing list leaves a strictly increasing
list with one element fewer, whose elements all belong to the list, and to which the
removed element does not belong. -/
theorem eraseIdx_strict (l : List ℕ) (j : ℕ) (hj : j < l.length)
    (hs : l.Pairwise (· < ·)) :
    (l.eraseIdx j).Pairwise (· < ·) ∧ (l.eraseIdx j).length + 1 = l.length ∧
      (∀ x ∈ l.eraseIdx j, x ∈ l) ∧ l[j] ∉ l.eraseIdx j := by
  refine ⟨hs.sublist (List.eraseIdx_sublist l j), ?_, ?_, ?_⟩
  · rw [List.length_eraseIdx, if_pos hj]; omega
  · intro x hx; exact (List.eraseIdx_sublist l j).subset hx
  · have hnd : l.Nodup := hs.imp (fun h => Nat.ne_of_lt h)
    rw [← hnd.erase_getElem j hj]
    exact hnd.not_mem_erase

/-! ## The loop of `IterativeKRSFRPCpp` -/

section Loop

variable (hac : Mat α → Except Err (Mat α)) (R V m W : Mat α) (crit : α)

/-- What a pass that returns has computed. -/
theorem body_stop {w : Work α} {v : List ℕ}
    (h : IterativeKRSFRPCpp_body hac R V m W crit w = .ok (.stop v)) :
    v = w.kept_factors ∧ ∃ frp se t j tj,
      KRSFRPCpp w.beta_ m W = .ok frp ∧
      StandardErrorsKRSFRPCpp hac frp R w.factors_ w.beta_ w.covariance_factors_returns_ V m
        = .ok se ∧
      div frp se = .ok t ∧ index_min (Mat.abs t) = .ok j ∧ Mat.get t j = .ok tj ∧
      IEEE.lt (.num crit) tj.abs := by
  unfold IterativeKRSFRPCpp_body at h
  simp only [bind, Except.bind, pure, Except.pure] at h
  split at h; · cases h
  rename_i frp h1
  split at h; · cases h
  rename_i se h2
  split at h; · cases h
  rename_i t h3
  split at h; · cases h
  rename_i j h4
  split at h; · cases h
  rename_i tj h5
  split_ifs at h with hc
  · simp only [Except.ok.injEq, Step.stop.injEq] at h
    exact ⟨h.symm, frp, se, t, j, tj, h1, h2, h3, h4, h5, hc⟩
  · exfalso
    revert h
    split; · intro h; cases h
    split; · intro h; cases h
    split; · intro h; cases h
    split; · intro h; cases h
    intro h; cases h

/-- What a pass that goes on has computed. -/
theorem body_next {w w' : Work α}
    (h : IterativeKRSFRPCpp_body hac R V m W crit w = .ok (.next w')) :
    ∃ frp se t j tj,
      KRSFRPCpp w.beta_ m W = .ok frp ∧
      StandardErrorsKRSFRPCpp hac frp R w.factors_ w.beta_ w.covariance_factors_returns_ V m
        = .ok se ∧
      div frp se = .ok t ∧ index_min (Mat.abs t) = .ok j ∧ Mat.get t j = .ok tj ∧
      ¬ IEEE.lt (.num crit) tj.abs ∧
      erase w.kept_factors j = .ok w'.kept_factors ∧
      shed_col w.factors_ j = .ok w'.factors_ ∧
      shed_col w.beta_ j = .ok w'.beta_ ∧
      shed_row w.covariance_factors_returns_ j = .ok w'.covariance_factors_returns_ := by
  unfold IterativeKRSFRPCpp_body at h
  simp only [bind, Except.bind, pure, Except.pure] at h
  split at h; · cases h
  rename_i frp h1
  split at h; · cases h
  rename_i se h2
  split at h; · cases h
  rename_i t h3
  split at h; · cases h
  rename_i j h4
  split at h; · cases h
  rename_i tj h5
  split_ifs at h with hc
  · cases h
  · split at h; · cases h
    rename_i k h6
    split at h; · cases h
    rename_i f h7
    split at h; · cases h
    rename_i b h8
    split at h; · cases h
    rename_i c h9
    simp only [Except.ok.injEq, Step.next.injEq] at h
    subst h
    exact ⟨frp, se, t, j, tj, h1, h2, h3, h4, h5, hc, h6, h7, h8, h9⟩

/-- A pass in which the least `|t|` exceeds the critical value returns `kept_factors`. -/
theorem body_eq_stop {w : Work α} {frp se : Mat α} {t : Mat (IEEE α)} {j : ℕ} {tj : IEEE α}
    (h1 : KRSFRPCpp w.beta_ m W = .ok frp)
    (h2 : StandardErrorsKRSFRPCpp hac frp R w.factors_ w.beta_ w.covariance_factors_returns_ V m
        = .ok se)
    (h3 : div frp se = .ok t) (h4 : index_min (Mat.abs t) = .ok j) (h5 : Mat.get t j = .ok tj)
    (h6 : IEEE.lt (.num crit) tj.abs) :
    IterativeKRSFRPCpp_body hac R V m W crit w = .ok (.stop w.kept_factors) := by
  unfold IterativeKRSFRPCpp_body
  simp only [bind, Except.bind, pure, Except.pure, h1, h2, h3, h4, h5]
  rw [if_pos h6]

/-- The state of pass `i + 1` is the state of pass `i` of the loop entered one pass
later. -/
theorem state_succ_of_next {w w' : Work α}
    (h : IterativeKRSFRPCpp_body hac R V m W crit w = .ok (.next w')) (i : ℕ) :
    IterativeKRSFRPCpp_state hac R V m W crit (i + 1) w =
      IterativeKRSFRPCpp_state hac R V m W crit i w' := by
  rw [IterativeKRSFRPCpp_state, h]

/-- A property of the working state that every pass which goes on preserves holds at
the start of every pass. -/
theorem state_invariant (P : Work α → Prop)
    (hstep : ∀ w w', P w → IterativeKRSFRPCpp_body hac R V m W crit w = .ok (.next w') → P w')
    (i : ℕ) (w0 w : Work α) (h0 : P w0)
    (h : IterativeKRSFRPCpp_state hac R V m W crit i w0 = some w) : P w := by
  induction i generalizing w0 with
  | zero =>
    simp only [IterativeKRSFRPCpp_state, Option.some.injEq] at h
    exact h ▸ h0
  | succ i ih =>
    rw [IterativeKRSFRPCpp_state] at h
    split at h
    · rename_i w1 h1
      exact ih w1 (hstep w0 w1 h0 h1) h
    · cases h

/-- A call of the loop that returns a vector either ran out of passes and returns the
empty vector, or returned from a pass it had reached. -/
theorem loop_ok (n : ℕ) (w0 : Work α) (v : List ℕ)
    (h : IterativeKRSFRPCpp_loop hac R V m W crit n w0 = .ok v) :
    (v = [] ∧ ∃ w, IterativeKRSFRPCpp_state hac R V m W crit n w0 = some w) ∨
    ∃ i w, i < n ∧ IterativeKRSFRPCpp_state hac R V m W crit i w0 = some w ∧
      IterativeKRSFRPCpp_body hac R V m W crit w = .ok (.stop v) := by
  induction n generalizing w0 with
  | zero =>
    simp only [IterativeKRSFRPCpp_loop, Except.ok.injEq] at h
    exact Or.inl ⟨h.symm, w0, rfl⟩
  | succ n ih =>
    rw [IterativeKRSFRPCpp_loop] at h
    split at h
    · cases h
    · rename_i k hk
      simp only [Except.ok.injEq] at h
      subst h
      exact Or.inr ⟨0, w0, Nat.succ_pos n, rfl, hk⟩
    · rename_i w1 h1
      rcases ih w1 h with ⟨hv, w, hw⟩ | ⟨i, w, hi, hw, hb⟩
      · exact Or.inl ⟨hv, w, by rw [state_succ_of_next hac R V m W crit h1]; exact hw⟩
      · exact Or.inr ⟨i + 1, w, Nat.succ_lt_succ hi,
          by rw [state_succ_of_next hac R V m W crit h1]; exact hw, hb⟩

/-- A pass that returns within the passes the loop makes is what the loop returns. -/
theorem loop_eq_of_stop (n i : ℕ) (w0 w : Work α) (v : List ℕ) (hi : i < n)
    (hw : IterativeKRSFRPCpp_state hac R V m W crit i w0 = some w)
    (hb : IterativeKRSFRPCpp_body hac R V m W crit w = .ok (.stop v)) :
    IterativeKRSFRPCpp_loop hac R V m W crit n w0 = .ok v := by
  induction i generalizing n w0 with
  | zero =>
    simp only [IterativeKRSFRPCpp_state, Option.some.injEq] at hw
    subst hw
    obtain ⟨n, rfl⟩ : ∃ k, n = k + 1 := ⟨n - 1, by omega⟩
    rw [IterativeKRSFRPCpp_loop, hb]
  | succ i ih =>
    obtain ⟨n, rfl⟩ : ∃ k, n = k + 1 := ⟨n - 1, by omega⟩
    rw [IterativeKRSFRPCpp_state] at hw
    split at hw
    · rename_i w1 h1
      rw [IterativeKRSFRPCpp_loop, h1]
      exact ih n w1 (by omega) hw
    · cases hw

/-- When every pass the loop can make goes on, the loop runs out of passes and returns
the empty vector. -/
theorem loop_eq_nil_of_state (n : ℕ) (w0 w : Work α)
    (hw : IterativeKRSFRPCpp_state hac R V m W crit n w0 = some w) :
    IterativeKRSFRPCpp_loop hac R V m W crit n w0 = .ok [] := by
  induction n generalizing w0 with
  | zero => rfl
  | succ n ih =>
    rw [IterativeKRSFRPCpp_state] at hw
    split at hw
    · rename_i w1 h1
      rw [IterativeKRSFRPCpp_loop, h1]
      exact ih w1 hw
    · cases hw

end Loop

/-- A pass in which the least `|t|` does not exceed the critical value goes on with the
reduced working copies. -/
theorem body_eq_next (hac : Mat α → Except Err (Mat α)) (R V m W : Mat α) (crit : α)
    {w : Work α} {frp se f b c : Mat α} {t : Mat (IEEE α)} {j : ℕ} {tj : IEEE α} {k : List ℕ}
    (h1 : KRSFRPCpp w.beta_ m W = .ok frp)
    (h2 : StandardErrorsKRSFRPCpp hac frp R w.factors_ w.beta_ w.covariance_factors_returns_ V m
        = .ok se)
    (h3 : div frp se = .ok t) (h4 : index_min (Mat.abs t) = .ok j) (h5 : Mat.get t j = .ok tj)
    (h6 : ¬ IEEE.lt (.num crit) tj.abs) (h7 : erase w.kept_factors j = .ok k)
    (h8 : shed_col w.factors_ j = .ok f) (h9 : shed_col w.beta_ j = .ok b)
    (h10 : shed_row w.covariance_factors_returns_ j = .ok c) :
    IterativeKRSFRPCpp_body hac R V m W crit w = .ok (.next ⟨f, b, c, k⟩) := by
  unfold IterativeKRSFRPCpp_body
  simp only [bind, Except.bind, pure, Except.pure, h1, h2, h3, h4, h5]
  rw [if_neg h6]
  simp only [h7, h8, h9, h10]

/-- For mean returns given as a vector and working copies with as many retained
indices as columns of loadings, the position `index_min` reports is a position of
`kept_factors`: the call of `erase` stays within the list. -/
theorem erase_in_range {w : Work α} {m W frp se : Mat α} {t : Mat (IEEE α)} {j : ℕ}
    (hk : w.kept_factors.length = w.beta_.n_cols) (hm : m.n_cols = 1)
    (h1 : KRSFRPCpp w.beta_ m W = .ok frp) (h3 : div frp se = .ok t)
    (h4 : index_min (Mat.abs t) = .ok j) :
    erase w.kept_factors j = .ok (w.kept_factors.eraseIdx j) := by
  obtain ⟨v, hv, -, -⟩ := index_min_spec _ _ h4
  have hj : j < (Mat.abs t).elems.length := by
    by_contra hc
    rw [List.getElem?_eq_none (not_lt.mp hc)] at hv
    cases hv
  rw [Mat.abs_elems, List.length_map, Mat.length_elems] at hj
  have hd := div_ok h3
  have hf := KRSFRPCpp_ok h1
  have : t.n_elem = w.kept_factors.length := by
    unfold Mat.n_elem
    rw [hd.1, hd.2.1, hf.1, hf.2, hm, hk, Nat.mul_one]
  unfold erase
  rw [if_pos (by omega)]

/-- A pass that does not fail has at least one column of loadings to work on. -/
theorem body_ok_n_cols_pos (hac : Mat α → Except Err (Mat α)) (R V m W : Mat α) (crit : α)
    {w : Work α} {s : Step α} (h : IterativeKRSFRPCpp_body hac R V m W crit w = .ok s) :
    0 < w.beta_.n_cols := by
  have key : ∀ frp t j, KRSFRPCpp w.beta_ m W = .ok frp → (∃ se, div frp se = .ok t) →
      index_min (Mat.abs t) = .ok j → 0 < w.beta_.n_cols := by
    intro frp t j h1 ⟨se, h3⟩ h4
    by_contra hc
    have h0 : w.beta_.n_cols = 0 := by omega
    have ht : (Mat.abs t).n_rows = 0 := by
      show t.n_rows = 0
      rw [(div_ok h3).1, (KRSFRPCpp_ok h1).1, h0]
    rw [index_min_error_of_nil _ (Mat.elems_eq_nil_of_n_rows _ ht)] at h4
    cases h4
  cases s with
  | stop v =>
    obtain ⟨-, frp, se, t, j, tj, h1, -, h3, h4, -, -⟩ := body_stop hac R V m W crit h
    exact key frp t j h1 ⟨se, h3⟩ h4
  | next w' =>
    obtain ⟨frp, se, t, j, tj, h1, -, h3, h4, -, -⟩ := body_next hac R V m W crit h
    exact key frp t j h1 ⟨se, h3⟩ h4

/-- Every pass that goes on takes one column from the working loadings. -/
theorem state_beta_n_cols (hac : Mat α → Except Err (Mat α)) (R V m W : Mat α) (crit : α)
    (i : ℕ) (w0 w : Work α)
    (h : IterativeKRSFRPCpp_state hac R V m W crit i w0 = some w) :
    w.beta_.n_cols + i = w0.beta_.n_cols := by
  induction i generalizing w0 with
  | zero =>
    simp only [IterativeKRSFRPCpp_state, Option.some.injEq] at h
    rw [h]; rfl
  | succ i ih =>
    rw [IterativeKRSFRPCpp_state] at h
    split at h
    · rename_i w1 h1
      obtain ⟨frp, se, t, j, tj, -, -, -, -, -, -, -, -, hb, -⟩ := body_next hac R V m W crit h1
      have := (shed_col_ok hb).2.1
      have := ih w1 h
      omega
    · cases h

/-- The list `kept_factors` is as long as the working loadings have columns, when it
is so at the start. -/
theorem state_kept_length (hac : Mat α → Except Err (Mat α)) (R V m W : Mat α) (crit : α)
    (i : ℕ) (w0 w : Work α) (h0 : w0.kept_factors.length = w0.beta_.n_cols)
    (h : IterativeKRSFRPCpp_state hac R V m W crit i w0 = some w) :
    w.kept_factors.length = w.beta_.n_cols := by
  refine state_invariant hac R V m W crit
    (fun w => w.kept_factors.length = w.beta_.n_cols) ?_ i w0 w h0 h
  intro w w' hw hb
  obtain ⟨frp, se, t, j, tj, -, -, -, -, -, -, he, -, hb', -⟩ := body_next hac R V m W crit hb
  obtain ⟨hj, hk⟩ := erase_ok he
  have := (shed_col_ok hb').2.1
  rw [hk, List.length_eraseIdx, if_pos hj]
  omega

/-- The list `kept_factors` is strictly increasing and within `0..K-1` at the start
of every pass. -/
theorem kept_factors_sorted (hac : Mat α → Except Err (Mat α)) (R V m W : Mat α) (crit : α)
    (K : ℕ) (i : ℕ) (w0 w : Work α)
    (h0 : w0.kept_factors.Pairwise (· < ·) ∧ ∀ x ∈ w0.kept_factors, x < K)
    (h : IterativeKRSFRPCpp_state hac R V m W crit i w0 = some w) :
    w.kept_factors.Pairwise (· < ·) ∧ ∀ x ∈ w.kept_factors, x < K := by
  refine state_invariant hac R V m W crit
    (fun w => w.kept_factors.Pairwise (· < ·) ∧ ∀ x ∈ w.kept_factors, x < K) ?_ i w0 w h0 h
  intro w w' hw hb
  obtain ⟨frp, se, t, j, tj, -, -, -, -, -, -, he, -, -, -⟩ := body_next hac R V m W crit hb
  obtain ⟨hj, hk⟩ := erase_ok he
  have := eraseIdx_strict w.kept_factors j hj hw.1
  rw [hk]
  exact ⟨this.1, fun x hx => hw.2 x (this.2.2.1 x hx)⟩

/-- The initial list `0, 1, ..., K-1` is strictly increasing and within `0..K-1`. -/
theorem init_kept_factors_sorted (F B C : Mat α) :
    (IterativeKRSFRPCpp_init F B C).kept_factors.Pairwise (· < ·) ∧
      ∀ x ∈ (IterativeKRSFRPCpp_init F B C).kept_factors, x < F.n_cols :=
  ⟨List.pairwise_lt_range _, fun _ hx => List.mem_range.mp hx⟩

/-- At the start of every pass the three working copies are the selections of the
caller's matrices at `kept_factors`. -/
theorem working_copies_selection (hac : Mat α → Except Err (Mat α)) (R V m W : Mat α)
    (crit : α) (F B C : Mat α) (hB : B.n_cols = F.n_cols) (hC : C.n_rows = F.n_cols)
    (i : ℕ) (w : Work α)
    (h : IterativeKRSFRPCpp_state hac R V m W crit i (IterativeKRSFRPCpp_init F B C) = some w) :
    w.factors_ = select_cols F w.kept_factors ∧ w.beta_ = select_cols B w.kept_factors ∧
      w.covariance_factors_returns_ = select_rows C w.kept_factors := by
  refine state_invariant hac R V m W crit
    (fun w => w.factors_ = select_cols F w.kept_factors ∧
      w.beta_ = select_cols B w.kept_factors ∧
      w.covariance_factors_returns_ = select_rows C w.kept_factors) ?_ i _ w ?_ h
  · intro w w' hw hb
    obtain ⟨frp, se, t, j, tj, -, -, -, -, -, -, he, hf, hb', hc⟩ :=
      body_next hac R V m W crit hb
    obtain ⟨-, hk⟩ := erase_ok he
    rw [hw.1] at hf
    rw [hw.2.1] at hb'
    rw [hw.2.2] at hc
    rw [hk]
    exact ⟨shed_col_select_cols _ _ _ _ hf, shed_col_select_cols _ _ _ _ hb',
      shed_row_select_rows _ _ _ _ hc⟩
  · exact ⟨(select_cols_range F _ rfl).symm, (select_cols_range B _ hB).symm,
      (select_rows_range C _ hC).symm⟩

/-- A non-empty vector returned by the loop is the list `kept_factors` of a pass the
loop made, in which the premia and standard errors of the selected loadings were
computed and every `|t|` that is not the NaN of `0 / 0` exceeded the critical value. -/
theorem loop_stopped_significant (hac : Mat α → Except Err (Mat α)) (R F B C V m W : Mat α)
    (crit : α) (n : ℕ) (hB : B.n_cols = F.n_cols) (hC : C.n_rows = F.n_cols) (v : List ℕ)
    (h : IterativeKRSFRPCpp_loop hac R V m W crit n (IterativeKRSFRPCpp_init F B C) = .ok v)
    (hv : v ≠ []) :
    ∃ i w, i < n ∧
      IterativeKRSFRPCpp_state hac R V m W crit i (IterativeKRSFRPCpp_init F B C) = some w ∧
      w.kept_factors = v ∧
      ∃ frp se, KRSFRPCpp (select_cols B v) m W = .ok frp ∧
        StandardErrorsKRSFRPCpp hac frp R (select_cols F v) (select_cols B v)
          (select_rows C v) V m = .ok se ∧
        frp.n_rows = v.length ∧ se.n_rows = v.length ∧ se.n_cols = frp.n_cols ∧
        ∀ k c, k < v.length → c < frp.n_cols →
          (frp.elem k c = 0 ∧ se.elem k c = 0) ∨
          IEEE.lt (.num crit) (IEEE.div (frp.elem k c) (se.elem k c)).abs := by
  rcases loop_ok hac R V m W crit n _ v h with ⟨rfl, -⟩ | ⟨i, w, hi, hw, hb⟩
  · exact absurd rfl hv
  · obtain ⟨hk, frp, se, t, j, tj, h1, h2, h3, h4, h5, h6⟩ := body_stop hac R V m W crit hb
    obtain ⟨s1, s2, s3⟩ := working_copies_selection hac R V m W crit F B C hB hC i w hw
    rw [s1, s2, s3, ← hk] at h2
    rw [s2, ← hk] at h1
    have hd := div_ok h3
    have hrows : frp.n_rows = v.length := (KRSFRPCpp_ok h1).1
    refine ⟨i, w, hi, hw, hk.symm, frp, se, h1, h2, hrows, ?_, hd.2.2.2.1, ?_⟩
    · rw [hd.2.2.1, hrows]
    · intro k c hk' hc
      have hall := all_exceed_of_index_min h4 h5 h6
      have hmem := hd.2.2.2.2 k c (by rw [hrows]; exact hk') hc
      rcases hall _ hmem with hn | hn
      · exact Or.inl ((IEEE.div_eq_nan _ _).mp hn)
      · exact Or.inr hn

/-- The moments of the example panel are those of its returns and factors. -/
theorem panel_moments :
    FRPCpp_beta panel_returns panel_factors = .ok panel_beta ∧
    cov2 panel_factors panel_returns = .ok panel_covariance_factors_returns ∧
    cov panel_returns = panel_variance_returns ∧
    (mean panel_returns).t = panel_mean_returns ∧
    FRPCpp_beta panel_returns panel_factor_one = .ok panel_beta_one ∧
    cov2 panel_factor_one panel_returns = .ok panel_covariance_factor_one_returns := by
  decide!

/-- On the example panel, when the loop is entered with two factors of which the second
has the premium zero, the first pass removes the second factor, whatever non-zero
standard errors the HAC primitive returns and whatever non-negative critical value is
in force. -/
theorem panel_first_pass (hac : Mat ℚ → Except Err (Mat ℚ)) (crit a b : ℚ) (hcrit : 0 ≤ crit)
    (ha : a ≠ 0) (hb : b ≠ 0)
    (hse : StandardErrorsKRSFRPCpp hac (ofCol ![1, 0]) panel_returns panel_factors panel_beta
      panel_covariance_factors_returns panel_variance_returns panel_mean_returns
        = .ok (ofCol ![a, b])) :
    IterativeKRSFRPCpp_body hac panel_returns panel_variance_returns panel_mean_returns
      panel_variance_returns crit
      (IterativeKRSFRPCpp_init panel_factors panel_beta panel_covariance_factors_returns)
      = .ok (.next ⟨panel_factor_one, ofMatrix !![1; 0], ofMatrix !![4/3, 2/3], [0]⟩) := by
  have h1 : KRSFRPCpp panel_beta panel_mean_returns panel_variance_returns
      = .ok (ofCol ![1, 0]) := by decide!
  have h3 : div (ofCol ![(1 : ℚ), 0]) (ofCol ![a, b])
      = .ok (ofCol ![IEEE.num (1 / a), IEEE.num 0]) := by
    rw [div_ofCol]
    congr 2
    funext i
    fin_cases i
    · exact IEEE.div_of_ne_zero _ ha
    · show IEEE.div (0 : ℚ) b = IEEE.num 0
      rw [IEEE.div_of_ne_zero _ hb, zero_div]
  have hpos : 0 < |1 / a| := abs_pos.mpr (one_div_ne_zero ha)
  have h4 : index_min (Mat.abs (ofCol ![IEEE.num (1 / a), IEEE.num 0])) = .ok 1 := by
    have he : (Mat.abs (ofCol ![IEEE.num (1 / a), IEEE.num 0])).elems
        = [IEEE.num |1 / a|, IEEE.num 0] := by
      rw [Mat.abs_elems, Mat.elems_ofCol]
      simp [List.finRange_succ_eq_map, IEEE.abs]
    unfold index_min
    rw [he]
    simp only [index_min_scan, IEEE.lt, if_true, hpos]
  have h5 : Mat.get (ofCol ![IEEE.num (1 / a), IEEE.num (0 : ℚ)]) 1 = .ok (IEEE.num 0) := by
    unfold Mat.get
    rw [Mat.elems_ofCol]
    simp [List.finRange_succ_eq_map]
  exact body_eq_next hac _ _ _ _ crit h1 hse h3 h4 h5
    (by simpa [IEEE.abs, IEEE.lt] using hcrit)
    (by decide) (by decide!) (by decide!) (by decide!)

/-- The critical value on the example panel (two assets): the quantile at
`1 - alpha / 4`. -/
theorem panel_critical_value (qnorm : ℚ → ℚ) (alpha : ℚ) :
    critical_value qnorm panel_mean_returns alpha = qnorm (1 - alpha / 4) := by
  have h2 : bonferroni_constant panel_mean_returns = 2 := by decide
  unfold critical_value
  rw [h2]
  norm_num

/-! ## The standard-error functions and their terms -/

/-- The function `StandardErrorsKRSFRPCpp` hands its terms to the HAC primitive and
returns what the primitive returns. -/
theorem StandardErrorsKRSFRPCpp_eq (hac : Mat α → Except Err (Mat α))
    (frp R F B C V m : Mat α) :
    StandardErrorsKRSFRPCpp hac frp R F B C V m
      = (StandardErrorsKRSFRPCpp_terms frp R F B C V m >>= hac) := by
  unfold StandardErrorsKRSFRPCpp StandardErrorsKRSFRPCpp_terms StandardErrorsKRSFRPCpp_locals
  simp only [bind_assoc, pure_bind]

/-! ## C1 -/

/-- C1. When the Gram matrix of the loadings is invertible and the mean returns are
`beta * lambda_true` exactly, `FMFRPCpp` returns `lambda_true`. -/
theorem FMFRPCpp_recovers_lambda_true {N K : ℕ} (beta : Matrix (Fin N) (Fin K) α)
    (lambda_true : Fin K → α) (h : (betaᵀ * beta).det ≠ 0) :
    FMFRPCpp (ofMatrix beta) (ofCol (beta *ᵥ lambda_true)) = .ok (ofCol lambda_true) := by
  rw [Mat.ofCol_eq, FMFRPCpp_ofMatrix _ _ h, Mat.ofCol_eq]
  have hu : IsUnit (betaᵀ * beta).det := isUnit_iff_ne_zero.mpr h
  rw [Matrix.col_mulVec, Matrix.mul_assoc, ← Matrix.mul_assoc betaᵀ, ← Matrix.mul_assoc,
    Matrix.nonsing_inv_mul _ hu, Matrix.one_mul]

/-- The statement of C1 at `beta_3x2` and the premia `(2, 5)`. -/
theorem FMFRPCpp_recovers_lambda_true_witness :
    (beta_3x2ᵀ * beta_3x2).det ≠ 0 ∧
      FMFRPCpp (ofMatrix beta_3x2) (ofCol (beta_3x2 *ᵥ ![2, 5])) = .ok (ofCol ![2, 5]) :=
  ⟨by decide!, FMFRPCpp_recovers_lambda_true beta_3x2 ![2, 5] (by decide!)⟩

/-! ## C2 -/

/-- C2. With the weighting matrix `c * I`, `c > 0`, and loadings of full column rank,
`KRSFRPCpp` returns what `FMFRPCpp` returns, and that is a vector of premia (neither
call fails). -/
theorem KRSFRPCpp_scaled_identity_eq_FMFRPCpp {N K : ℕ} (beta : Matrix (Fin N) (Fin K) α)
    (mean_returns : Fin N → α) (c : α) (hc : 0 < c) (hrank : beta.rank = K) :
    KRSFRPCpp (ofMatrix beta) (ofCol mean_returns)
        (ofMatrix (c • (1 : Matrix (Fin N) (Fin N) α))) =
      FMFRPCpp (ofMatrix beta) (ofCol mean_returns) ∧
    ∃ lam : Fin K → α, FMFRPCpp (ofMatrix beta) (ofCol mean_returns) = .ok (ofCol lam) := by
  have hG := gram_det_ne_zero beta hrank
  have hGu : IsUnit (betaᵀ * beta).det := isUnit_iff_ne_zero.mpr hG
  have hc0 : c ≠ 0 := hc.ne'
  have hWdet : (c • (1 : Matrix (Fin N) (Fin N) α)).det ≠ 0 := by
    simp [Matrix.det_smul, hc0]
  have hWinv : (c • (1 : Matrix (Fin N) (Fin N) α))⁻¹ = c⁻¹ • 1 := by
    apply Matrix.inv_eq_left_inv
    simp [hc0]
  have hA : ((c • (1 : Matrix (Fin N) (Fin N) α))⁻¹ * beta)ᵀ = c⁻¹ • betaᵀ := by
    rw [hWinv]; simp
  have hH : (((c • (1 : Matrix (Fin N) (Fin N) α))⁻¹ * beta)ᵀ * beta).det ≠ 0 := by
    rw [hA, Matrix.smul_mul, Matrix.det_smul]
    exact mul_ne_zero (pow_ne_zero _ (inv_ne_zero hc0)) hG
  have hFM := FMFRPCpp_ofMatrix beta (Matrix.col (Fin 1) mean_returns) hG
  refine ⟨?_, ⟨((betaᵀ * beta)⁻¹ * betaᵀ) *ᵥ mean_returns, ?_⟩⟩
  · rw [Mat.ofCol_eq, hFM, KRSFRPCpp_ofMatrix _ _ _ hWdet hH, hA]
    congr 3
    rw [Matrix.smul_mul]
    have : (c⁻¹ • (betaᵀ * beta))⁻¹ = c • (betaᵀ * beta)⁻¹ := by
      apply Matrix.inv_eq_left_inv
      rw [Matrix.smul_mul, Matrix.mul_smul, smul_smul, mul_inv_cancel₀ hc0, one_smul,
        Matrix.nonsing_inv_mul _ hGu]
    rw [this, Matrix.smul_mul, Matrix.mul_smul, smul_smul, mul_inv_cancel₀ hc0, one_smul]
  · rw [Mat.ofCol_eq, hFM, Mat.ofCol_eq, Matrix.col_mulVec]

/-- The statement of C2 at `beta_3x2`, the mean returns `(1, 2, 4)` and `c = 2`. -/
theorem KRSFRPCpp_scaled_identity_eq_FMFRPCpp_witness :
    (0 : ℚ) < 2 ∧ beta_3x2.rank = 2 ∧
    KRSFRPCpp (ofMatrix beta_3x2) (ofCol ![1, 2, 4])
        (ofMatrix ((2 : ℚ) • (1 : Matrix (Fin 3) (Fin 3) ℚ))) =
      FMFRPCpp (ofMatrix beta_3x2) (ofCol ![1, 2, 4]) ∧
    ∃ lam : Fin 2 → ℚ, FMFRPCpp (ofMatrix beta_3x2) (ofCol ![1, 2, 4]) = .ok (ofCol lam) :=
  ⟨by norm_num, rank_of_gram_det_ne_zero _ (by decide!),
    KRSFRPCpp_scaled_identity_eq_FMFRPCpp beta_3x2 ![1, 2, 4] 2 (by norm_num)
      (rank_of_gram_det_ne_zero _ (by decide!))⟩

/-! ## C3 -/

/-- C3. For a symmetric positive definite weighting matrix `W` and loadings of full
column rank, `KRSFRPCpp` returns a vector `lam` that minimises the weighted pricing
error `(m - beta l)ᵀ W⁻¹ (m - beta l)` over all `l`. -/
theorem KRSFRPCpp_minimises_weighted_pricing_error {N K : ℕ} (beta : Matrix (Fin N) (Fin K) α)
    (mean_returns : Fin N → α) (W : Matrix (Fin N) (Fin N) α) (hsymm : Wᵀ = W)
    (hpd : ∀ x : Fin N → α, x ≠ 0 → 0 < x ⬝ᵥ W *ᵥ x) (hrank : beta.rank = K) :
    ∃ lam : Fin K → α,
      KRSFRPCpp (ofMatrix beta) (ofCol mean_returns) (ofMatrix W) = .ok (ofCol lam) ∧
      ∀ l : Fin K → α,
        (mean_returns - beta *ᵥ lam) ⬝ᵥ W⁻¹ *ᵥ (mean_returns - beta *ᵥ lam) ≤
          (mean_returns - beta *ᵥ l) ⬝ᵥ W⁻¹ *ᵥ (mean_returns - beta *ᵥ l) := by
  have hW := det_ne_zero_of_posdef W hpd
  have hH := krs_gram_det_ne_zero beta W hpd hrank
  have hHu : IsUnit ((W⁻¹ * beta)ᵀ * beta).det := isUnit_iff_ne_zero.mpr hH
  set A : Matrix (Fin K) (Fin N) α := (W⁻¹ * beta)ᵀ with hA
  have hPsymm : (W⁻¹)ᵀ = W⁻¹ := by rw [Matrix.transpose_nonsing_inv, hsymm]
  have hAeq : A = betaᵀ * W⁻¹ := by rw [hA, Matrix.transpose_mul, hPsymm]
  refine ⟨((A * beta)⁻¹ * A) *ᵥ mean_returns, ?_, ?_⟩
  · rw [Mat.ofCol_eq, KRSFRPCpp_ofMatrix _ _ _ hW hH, Mat.ofCol_eq, Matrix.col_mulVec]
  · intro l
    set lam := ((A * beta)⁻¹ * A) *ᵥ mean_returns with hlam
    set e := mean_returns - beta *ᵥ lam with he
    have hnormal : A *ᵥ e = 0 := by
      rw [he, Matrix.mulVec_sub, Matrix.mulVec_mulVec, hlam, Matrix.mulVec_mulVec,
        ← Matrix.mul_assoc, Matrix.mul_nonsing_inv _ hHu, Matrix.one_mul, sub_self]
    have hsplit : mean_returns - beta *ᵥ l = e + beta *ᵥ (lam - l) := by
      rw [he, Matrix.mulVec_sub]; abel
    have hsw : ∀ x y : Fin N → α, x ⬝ᵥ W⁻¹ *ᵥ y = y ⬝ᵥ W⁻¹ *ᵥ x := by
      intro x y
      rw [Matrix.dotProduct_mulVec, ← Matrix.mulVec_transpose, hPsymm, Matrix.dotProduct_comm]
    have hcross : (beta *ᵥ (lam - l)) ⬝ᵥ W⁻¹ *ᵥ e = 0 := by
      rw [← Matrix.vecMul_transpose, ← Matrix.dotProduct_mulVec, Matrix.mulVec_mulVec, ← hAeq,
        hnormal, Matrix.dotProduct_zero]
    have hpsd := (inv_posSemidef W hpd (beta *ᵥ (lam - l))).1
    rw [hsplit, Matrix.mulVec_add, Matrix.dotProduct_add, Matrix.add_dotProduct,
      Matrix.add_dotProduct, hcross, hsw e (beta *ᵥ (lam - l)), hcross]
    linarith

/-- The statement of C3 at `beta_3x2`, `weights_3x3` and the mean returns `(1, 2, 4)`. -/
theorem KRSFRPCpp_minimises_weighted_pricing_error_witness :
    weights_3x3ᵀ = weights_3x3 ∧ (∀ x : Fin 3 → ℚ, x ≠ 0 → 0 < x ⬝ᵥ weights_3x3 *ᵥ x) ∧
    beta_3x2.rank = 2 ∧ ∃ lam : Fin 2 → ℚ,
      KRSFRPCpp (ofMatrix beta_3x2) (ofCol ![1, 2, 4]) (ofMatrix weights_3x3) = .ok (ofCol lam) ∧
      ∀ l : Fin 2 → ℚ,
        (![1, 2, 4] - beta_3x2 *ᵥ lam) ⬝ᵥ weights_3x3⁻¹ *ᵥ (![1, 2, 4] - beta_3x2 *ᵥ lam) ≤
          (![1, 2, 4] - beta_3x2 *ᵥ l) ⬝ᵥ weights_3x3⁻¹ *ᵥ (![1, 2, 4] - beta_3x2 *ᵥ l) :=
  ⟨by decide!, weights_3x3_posdef, rank_of_gram_det_ne_zero _ (by decide!),
    KRSFRPCpp_minimises_weighted_pricing_error beta_3x2 ![1, 2, 4] weights_3x3 (by decide!)
      weights_3x3_posdef (rank_of_gram_det_ne_zero _ (by decide!))⟩

/-- The critical value for `N` assets is the quantile at `1 - alpha / (2 N)`, whatever
the factor panel is. -/
theorem critical_value_ofCol {N : ℕ} (qnorm : α → α) (mean_returns : Fin N → α) (alpha : α) :
    critical_value qnorm (ofCol mean_returns) alpha = qnorm (1 - alpha / (2 * (N : α))) := by
  unfold critical_value bonferroni_constant Mat.n_elem ofCol
  simp

/-! ## C4 -/

/-- C4 (what the code does instead). On the example panel with its first factor only
there is one factor column and there are two assets; the Bonferroni constant of the
code is `mean_returns.n_elem = 2`, the number of assets, so with `alpha = 0.05` the
quantile is taken at `1 - 0.05 / (2 * 2)` and not at `1 - 0.05 / (2 * 1)` (the identity
is passed for `qnorm` to read off the probability). -/
theorem critical_value_uses_asset_count :
    panel_factor_one.n_cols = 1 ∧ bonferroni_constant panel_mean_returns = 2 ∧
    critical_value (fun p => p) panel_mean_returns (1/20) = 1 - (1/20) / (2 * 2) ∧
    critical_value (fun p => p) panel_mean_returns (1/20) ≠
      1 - (1/20) / (2 * (panel_factor_one.n_cols : ℚ)) := by
  decide!

/-! ## C5 -/

/-- C5 (what the code does instead). The loop counter starts at the number of assets,
`mean_returns.n_elem`. When there are more assets than factor columns the call never
returns the empty vector: once every factor is removed the loop makes another pass,
in which `index_min` has no element to look at and the call fails. -/
theorem IterativeKRSFRPCpp_never_empty_of_more_assets (qnorm : α → α)
    (hac : Mat α → Except Err (Mat α)) (R F B C V m W : Mat α) (alpha : α)
    (hB : B.n_cols = F.n_cols) (hlt : F.n_cols < m.n_elem) :
    IterativeKRSFRPCpp qnorm hac R F B C V m W alpha ≠ .ok [] := by
  intro h
  rcases loop_ok hac R V m W _ _ _ _ h with ⟨-, w, hw⟩ | ⟨i, w, -, hw, hb⟩
  · have := state_beta_n_cols hac R V m W _ _ _ w hw
    have h0 : (IterativeKRSFRPCpp_init F B C).beta_.n_cols = B.n_cols := rfl
    omega
  · have hlen := state_kept_length hac R V m W _ i _ w
      (by simp [IterativeKRSFRPCpp_init, hB]) hw
    have hpos := body_ok_n_cols_pos hac R V m W _ hb
    have hk := (body_stop hac R V m W _ hb).1
    rw [← hk] at hlen
    simp at hlen
    omega

/-- The statement of C5 at the example panel with its first factor only (one factor,
two assets): the factor is removed in the first pass and the second pass fails. -/
theorem IterativeKRSFRPCpp_never_empty_of_more_assets_witness :
    panel_beta_one.n_cols = panel_factor_one.n_cols ∧
    panel_factor_one.n_cols < panel_mean_returns.n_elem ∧
    IterativeKRSFRPCpp qnorm_table unit_standard_errors panel_returns panel_factor_one
      panel_beta_one panel_covariance_factor_one_returns panel_variance_returns
      panel_mean_returns panel_variance_returns (1/20) ≠ .ok [] ∧
    IterativeKRSFRPCpp qnorm_table unit_standard_errors panel_returns panel_factor_one
      panel_beta_one panel_covariance_factor_one_returns panel_variance_returns
      panel_mean_returns panel_variance_returns (1/20) = .error .logic_error :=
  ⟨by decide, by decide,
    IterativeKRSFRPCpp_never_empty_of_more_assets qnorm_table unit_standard_errors _ _ _ _ _ _ _ _
      (by decide) (by decide), by decide!⟩

/-- With as many assets as factors the loop does end with the empty vector: the run on
the example panel (two factors, two assets) with `alpha = 0.05` removes both factors and
returns the empty vector. -/
theorem IterativeKRSFRPCpp_empty_example :
    IterativeKRSFRPCpp qnorm_table unit_standard_errors panel_returns panel_factors panel_beta
      panel_covariance_factors_returns panel_variance_returns panel_mean_returns
      panel_variance_returns (1/20) = .ok [] := by decide!

/-! ## C6 -/

/-- C6 fails when a premium and its standard error are both zero.  The returns
`zero_asset_returns` have the column means `(0, 5)`; with the factors
`disjoint_factors` and the identity for the loadings, the variance of the returns and
the weighting matrix, the premia are `(0, 5)` and the first column of the matrix handed
to the HAC primitive is zero.  A primitive that returns `0` for that column gives the
t-statistics `(0/0, 5/s) = (NaN, 5/s)`; `index_min` passes over the NaN, `5/s` exceeds
the critical value `2.2414` for every `0 < s ≤ 2`, and the call returns both indices,
although the t-statistic of the first factor does not exceed the critical value. -/
theorem IterativeKRSFRPCpp_stopped_nan_counterexample :
    (mean zero_asset_returns).t = ofCol ![0, 5] ∧
    KRSFRPCpp identity_2x2 (ofCol ![0, 5]) identity_2x2 = .ok (ofCol ![0, 5]) ∧
    StandardErrorsKRSFRPCpp_terms (ofCol ![0, 5]) zero_asset_returns disjoint_factors
      identity_2x2 (ofMatrix !![0, 0; 0, 2/3]) identity_2x2 (ofCol ![0, 5])
      = .ok (ofMatrix !![0, 0; 0, 0; 0, 1; 0, -1]) ∧
    mean_abs_standard_errors (ofMatrix !![0, 0; 0, 0; 0, 1; 0, -1]) = .ok (ofCol ![0, 1/2]) ∧
    div (ofCol ![(0 : ℚ), 5]) (ofCol ![0, 1/2]) = .ok (ofCol ![IEEE.nan, IEEE.num 10]) ∧
    index_min (Mat.abs (ofCol ![IEEE.nan, IEEE.num (10 : ℚ)])) = .ok 1 ∧
    IterativeKRSFRPCpp qnorm_table mean_abs_standard_errors zero_asset_returns
      disjoint_factors identity_2x2 (ofMatrix !![0, 0; 0, 2/3]) identity_2x2 (ofCol ![0, 5])
      identity_2x2 (1/20) = .ok [0, 1] ∧
    critical_value qnorm_table (ofCol ![0, 5]) (1/20) = 22414/10000 ∧
    ¬ IEEE.lt (.num (critical_value qnorm_table (ofCol ![0, 5]) (1/20)))
      (IEEE.div (0 : ℚ) 0).abs ∧
    ∀ (hac : Mat ℚ → Except Err (Mat ℚ)) (s : ℚ), 0 < s → s ≤ 2 →
      hac (ofMatrix !![0, 0; 0, 0; 0, 1; 0, -1]) = .ok (ofCol ![0, s]) →
      IterativeKRSFRPCpp qnorm_table hac zero_asset_returns disjoint_factors identity_2x2
        (ofMatrix !![0, 0; 0, 2/3]) identity_2x2 (ofCol ![0, 5]) identity_2x2 (1/20)
        = .ok [0, 1] := by
  have hterms : StandardErrorsKRSFRPCpp_terms (ofCol ![0, 5]) zero_asset_returns
      disjoint_factors identity_2x2 (ofMatrix !![0, 0; 0, 2/3]) identity_2x2 (ofCol ![0, 5])
      = .ok (ofMatrix !![0, 0; 0, 0; 0, 1; 0, -1]) := by decide!
  have h1 : KRSFRPCpp identity_2x2 (ofCol ![0, 5]) identity_2x2 = .ok (ofCol ![0, 5]) := by
    decide!
  have hcrit : critical_value qnorm_table (ofCol ![0, 5]) (1/20) = 22414/10000 := by decide!
  refine ⟨by decide!, h1, hterms, by decide!, by decide!, by decide!, by decide!, hcrit,
    by decide!, ?_⟩
  intro hac s hs0 hs2 hhac
  have h2 : StandardErrorsKRSFRPCpp hac (ofCol ![0, 5]) zero_asset_returns disjoint_factors
      identity_2x2 (ofMatrix !![0, 0; 0, 2/3]) identity_2x2 (ofCol ![0, 5])
      = .ok (ofCol ![0, s]) := by
    rw [StandardErrorsKRSFRPCpp_eq, hterms]
    exact hhac
  have h3 : div (ofCol ![(0 : ℚ), 5]) (ofCol ![0, s])
      = .ok (ofCol ![IEEE.nan, IEEE.num (5 / s)]) := by
    rw [div_ofCol]
    congr 2
    funext i
    fin_cases i
    · exact (IEEE.div_eq_nan _ _).mpr ⟨rfl, rfl⟩
    · exact IEEE.div_of_ne_zero _ hs0.ne'
  have hbig : (22414/10000 : ℚ) < |5 / s| := by
    rw [abs_of_pos (div_pos (by norm_num) hs0), lt_div_iff₀ hs0]
    linarith
  have h4 : index_min (Mat.abs (ofCol ![IEEE.nan, IEEE.num (5 / s)])) = .ok 1 := by
    have he : (Mat.abs (ofCol ![IEEE.nan, IEEE.num (5 / s)])).elems
        = [IEEE.nan, IEEE.num |5 / s|] := by
      rw [Mat.abs_elems, Mat.elems_ofCol]
      simp [List.finRange_succ_eq_map, IEEE.abs]
    unfold index_min
    rw [he]
    simp only [index_min_scan, IEEE.lt, if_true, if_false]
  have h5 : Mat.get (ofCol ![IEEE.nan, IEEE.num (5 / s)]) 1 = .ok (IEEE.num (5 / s)) := by
    unfold Mat.get
    rw [Mat.elems_ofCol]
    simp [List.finRange_succ_eq_map]
  have hb := @body_eq_stop ℚ _ hac zero_asset_returns identity_2x2 (ofCol ![0, 5])
    identity_2x2 (critical_value qnorm_table (ofCol ![0, 5]) (1/20))
    (IterativeKRSFRPCpp_init disjoint_factors identity_2x2 (ofMatrix !![0, 0; 0, 2/3]))
    _ _ _ 1 _ h1 h2 h3 h4 h5 (by rw [hcrit]; exact hbig)
  exact loop_eq_of_stop hac _ _ _ _ _ _ 0 _ _ _ (by decide) rfl hb

/-- C6, amended. For caller's matrices whose factor extents agree: a non-empty vector
`v` returned by `IterativeKRSFRPCpp` is the list `kept_factors` of a pass the loop made,
and in that pass, with `frp` the KRS premia and `se` the KRS standard errors computed
for the loadings, factors and cross-covariance selected at `v`, every retained factor
`k` either has the premium and the standard error zero, so that its t-statistic is the
NaN of `0 / 0`, or has `|frp_k / se_k|` above the critical value; in particular it has
when its standard error is not zero. -/
theorem IterativeKRSFRPCpp_stopped_significant (qnorm : α → α)
    (hac : Mat α → Except Err (Mat α)) (R F B C V m W : Mat α) (alpha : α)
    (hB : B.n_cols = F.n_cols) (hC : C.n_rows = F.n_cols) (v : List ℕ)
    (h : IterativeKRSFRPCpp qnorm hac R F B C V m W alpha = .ok v) (hv : v ≠ []) :
    ∃ i w, i < m.n_elem ∧
      IterativeKRSFRPCpp_state hac R V m W (critical_value qnorm m alpha) i
        (IterativeKRSFRPCpp_init F B C) = some w ∧
      w.kept_factors = v ∧
      ∃ frp se, KRSFRPCpp (select_cols B v) m W = .ok frp ∧
        StandardErrorsKRSFRPCpp hac frp R (select_cols F v) (select_cols B v)
          (select_rows C v) V m = .ok se ∧
        frp.n_rows = v.length ∧ se.n_rows = v.length ∧ se.n_cols = frp.n_cols ∧
        (∀ k c, k < v.length → c < frp.n_cols →
          (frp.elem k c = 0 ∧ se.elem k c = 0) ∨
          IEEE.lt (.num (critical_value qnorm m alpha))
            (IEEE.div (frp.elem k c) (se.elem k c)).abs) ∧
        ∀ k c, k < v.length → c < frp.n_cols → se.elem k c ≠ 0 →
          critical_value qnorm m alpha < |frp.elem k c / se.elem k c| := by
  obtain ⟨i, w, hi, hw, hk, frp, se, h1, h2, h3, h4, h5, hall⟩ :=
    loop_stopped_significant hac R F B C V m W _ _ hB hC v h hv
  refine ⟨i, w, hi, hw, hk, frp, se, h1, h2, h3, h4, h5, hall, ?_⟩
  intro k c hk' hc hse
  rcases hall k c hk' hc with ⟨-, h0⟩ | hlt
  · exact absurd h0 hse
  · rw [IEEE.div_of_ne_zero _ hse] at hlt
    exact hlt

/-- The amended C6 at the run on the example panel with `alpha = 1`, which returns the
vector `[0]`. -/
theorem IterativeKRSFRPCpp_stopped_significant_witness :
    panel_beta.n_cols = panel_factors.n_cols ∧
    panel_covariance_factors_returns.n_rows = panel_factors.n_cols ∧
    IterativeKRSFRPCpp qnorm_table unit_standard_errors panel_returns panel_factors panel_beta
      panel_covariance_factors_returns panel_variance_returns panel_mean_returns
      panel_variance_returns 1 = .ok [0] ∧
    ∃ i w, i < panel_mean_returns.n_elem ∧
      IterativeKRSFRPCpp_state unit_standard_errors panel_returns panel_variance_returns
        panel_mean_returns panel_variance_returns
        (critical_value qnorm_table panel_mean_returns 1) i
        (IterativeKRSFRPCpp_init panel_factors panel_beta panel_covariance_factors_returns)
          = some w ∧
      w.kept_factors = [0] ∧
      ∃ frp se, KRSFRPCpp (select_cols panel_beta [0]) panel_mean_returns
          panel_variance_returns = .ok frp ∧
        StandardErrorsKRSFRPCpp unit_standard_errors frp panel_returns
          (select_cols panel_factors [0]) (select_cols panel_beta [0])
          (select_rows panel_covariance_factors_returns [0]) panel_variance_returns
          panel_mean_returns = .ok se ∧
        frp.n_rows = [0].length ∧ se.n_rows = [0].length ∧ se.n_cols = frp.n_cols ∧
        (∀ k c, k < [0].length → c < frp.n_cols →
          (frp.elem k c = 0 ∧ se.elem k c = 0) ∨
          IEEE.lt (.num (critical_value qnorm_table panel_mean_returns 1))
            (IEEE.div (frp.elem k c) (se.elem k c)).abs) ∧
        ∀ k c, k < [0].length → c < frp.n_cols → se.elem k c ≠ 0 →
          critical_value qnorm_table panel_mean_returns 1 < |frp.elem k c / se.elem k c| :=
  ⟨by decide, by decide, by decide!,
    IterativeKRSFRPCpp_stopped_significant qnorm_table unit_standard_errors _ _ _ _ _ _ _ 1
      (by decide) (by decide) [0] (by decide!) (by decide)⟩

/-- The amended C6 at the run with a zero standard error, which returns `[0, 1]`: the
first factor has the premium and the standard error zero, the second has
`|5 / (1/2)| = 10` above the critical value. -/
theorem IterativeKRSFRPCpp_stopped_significant_nan_example :
    ∃ frp se, KRSFRPCpp (select_cols identity_2x2 [0, 1]) (ofCol ![0, 5]) identity_2x2
        = .ok frp ∧
      StandardErrorsKRSFRPCpp mean_abs_standard_errors frp zero_asset_returns
        (select_cols disjoint_factors [0, 1]) (select_cols identity_2x2 [0, 1])
        (select_rows (ofMatrix !![0, 0; 0, 2/3]) [0, 1]) identity_2x2 (ofCol ![0, 5])
        = .ok se ∧
      frp = ofCol ![0, 5] ∧ se = ofCol ![0, 1/2] ∧
      (frp.elem 0 0 = 0 ∧ se.elem 0 0 = 0) ∧
      IEEE.lt (.num (critical_value qnorm_table (ofCol ![0, 5]) (1/20)))
        (IEEE.div (frp.elem 1 0) (se.elem 1 0)).abs :=
  ⟨ofCol ![0, 5], ofCol ![0, 1/2], by decide!, by decide!, rfl, rfl, by decide!, by decide!⟩

/-! ## C7 -/

/-- C7 fails on the example panel (two factors, two assets, `alpha = 1`): with unit
standard errors the call returns `[0]`; and whatever the quantile function (with a
value that is not negative at `1 - 1/4`) and the HAC primitive are, as long as the
standard error of the second factor in the first pass is not zero, the call does not
return both indices, because the premium of the second factor is zero, so that its `|t|`
is zero and does not exceed the critical value. -/
theorem IterativeKRSFRPCpp_alpha_one_counterexample :
    IterativeKRSFRPCpp qnorm_table unit_standard_errors panel_returns panel_factors panel_beta
      panel_covariance_factors_returns panel_variance_returns panel_mean_returns
      panel_variance_returns 1 = .ok [0] ∧
    ¬ ∃ (qnorm : ℚ → ℚ) (hac : Mat ℚ → Except Err (Mat ℚ)) (se : Mat ℚ),
      0 ≤ qnorm (3/4) ∧
      StandardErrorsKRSFRPCpp hac (ofCol ![1, 0]) panel_returns panel_factors panel_beta
        panel_covariance_factors_returns panel_variance_returns panel_mean_returns = .ok se ∧
      se.elem 1 0 ≠ 0 ∧
      IterativeKRSFRPCpp qnorm hac panel_returns panel_factors panel_beta
        panel_covariance_factors_returns panel_variance_returns panel_mean_returns
        panel_variance_returns 1 = .ok (List.range panel_factors.n_cols) := by
  refine ⟨by decide!, ?_⟩
  rintro ⟨qnorm, hac, se0, hq, hse0, hne, h⟩
  have hr : List.range panel_factors.n_cols = [0, 1] := by decide
  rw [hr] at h
  obtain ⟨i, w, -, -, -, frp, se, h1, h2, -, -, -, hall⟩ :=
    loop_stopped_significant hac panel_returns panel_factors panel_beta
      panel_covariance_factors_returns panel_variance_returns panel_mean_returns
      panel_variance_returns _ _ (by decide) (by decide) [0, 1] h (by decide)
  have hsel : select_cols panel_beta [0, 1] = panel_beta := by decide!
  have hself : select_cols panel_factors [0, 1] = panel_factors := by decide!
  have hselc : select_rows panel_covariance_factors_returns [0, 1]
      = panel_covariance_factors_returns := by decide!
  have hfrp : KRSFRPCpp panel_beta panel_mean_returns panel_variance_returns
      = .ok (ofCol ![1, 0]) := by decide!
  rw [hsel, hfrp] at h1
  simp only [Except.ok.injEq] at h1
  subst h1
  rw [hsel, hself, hselc, hse0] at h2
  simp only [Except.ok.injEq] at h2
  subst h2
  have h0 := hall 1 0 (by decide) (by decide)
  have he : (ofCol ![(1 : ℚ), 0]).elem 1 0 = 0 := by decide!
  rw [he, panel_critical_value] at h0
  rcases h0 with ⟨-, h0⟩ | h0
  · exact hne h0
  · rw [IEEE.div_of_ne_zero _ hne, zero_div] at h0
    simp only [IEEE.abs, IEEE.lt, abs_zero] at h0
    norm_num at h0
    exact absurd hq (not_le.mpr h0)

/-- C7, amended. With `alpha = 1`, when the loop is entered (`mean_returns` is not empty)
and in the first pass every entry of the t-statistics exceeds in absolute value the
critical value the call computes, the call stops in the first pass and returns all the
original indices `0, ..., K-1`. -/
theorem IterativeKRSFRPCpp_alpha_one_all_significant (qnorm : α → α)
    (hac : Mat α → Except Err (Mat α)) (R F B C V m W frp se : Mat α) (t : Mat (IEEE α))
    (hN : 0 < m.n_elem) (h1 : KRSFRPCpp B m W = .ok frp)
    (h2 : StandardErrorsKRSFRPCpp hac frp R F B C V m = .ok se)
    (h3 : div frp se = .ok t) (hne : t.elems ≠ [])
    (hall : ∀ x ∈ t.elems, IEEE.lt (.num (critical_value qnorm m 1)) x.abs) :
    IterativeKRSFRPCpp qnorm hac R F B C V m W 1 = .ok (List.range F.n_cols) := by
  have hne' : (Mat.abs t).elems ≠ [] := by
    rw [Mat.abs_elems]
    simpa using hne
  obtain ⟨j, h4⟩ := index_min_ok_of_ne_nil _ hne'
  obtain ⟨v, hv, -, -⟩ := index_min_spec _ _ h4
  rw [Mat.abs_elems, List.getElem?_map] at hv
  cases htj : t.elems[j]? with
  | none => rw [htj] at hv; cases hv
  | some tj =>
    have h5 : Mat.get t j = .ok tj := by
      unfold Mat.get
      rw [htj]
    have h6 := hall tj (List.getElem?_mem htj)
    have hb := @body_eq_stop α _ hac R V m W (critical_value qnorm m 1)
      (IterativeKRSFRPCpp_init F B C) frp se t j tj h1 h2 h3 h4 h5 h6
    exact loop_eq_of_stop hac R V m W _ _ 0 _ _ _ hN rfl hb

/-- The amended C7 at the example panel with its first factor only: the premium is `1`,
the standard error `1`, and `1` exceeds the critical value `0.6745`. -/
theorem IterativeKRSFRPCpp_alpha_one_all_significant_witness :
    0 < panel_mean_returns.n_elem ∧
    KRSFRPCpp panel_beta_one panel_mean_returns panel_variance_returns = .ok (ofCol ![1]) ∧
    StandardErrorsKRSFRPCpp unit_standard_errors (ofCol ![1]) panel_returns panel_factor_one
      panel_beta_one panel_covariance_factor_one_returns panel_variance_returns
      panel_mean_returns = .ok (ofCol ![1]) ∧
    div (ofCol ![(1 : ℚ)]) (ofCol ![1]) = .ok (ofCol ![IEEE.num 1]) ∧
    (ofCol ![IEEE.num (1 : ℚ)]).elems ≠ [] ∧
    (∀ x ∈ (ofCol ![IEEE.num (1 : ℚ)]).elems,
      IEEE.lt (.num (critical_value qnorm_table panel_mean_returns 1)) x.abs) ∧
    IterativeKRSFRPCpp qnorm_table unit_standard_errors panel_returns panel_factor_one
      panel_beta_one panel_covariance_factor_one_returns panel_variance_returns
      panel_mean_returns panel_variance_returns 1 = .ok (List.range panel_factor_one.n_cols) :=
  ⟨by decide, by decide!, by decide!, by decide!, by decide!, by decide!,
    IterativeKRSFRPCpp_alpha_one_all_significant qnorm_table unit_standard_errors _ _ _ _ _ _ _
      (ofCol ![1]) (ofCol ![1]) (ofCol ![IEEE.num 1]) (by decide) (by decide!) (by decide!)
      (by decide!) (by decide!) (by decide!)⟩

/-! ## C8 -/

/-- C8. The list `kept_factors` starts as `0, 1, ..., K-1` (`K` the number of factor
columns); at the start of every pass it is strictly increasing with all entries below
`K`; a pass that goes on erases exactly one position of it, so the new list has one
element fewer, all its elements belong to the old list and the erased element does
not; and a returned vector is strictly increasing with all entries below `K`. -/
theorem IterativeKRSFRPCpp_kept_factors_invariant (qnorm : α → α)
    (hac : Mat α → Except Err (Mat α)) (R F B C V m W : Mat α) (alpha : α) :
    (IterativeKRSFRPCpp_init F B C).kept_factors = List.range F.n_cols ∧
    (∀ i w, IterativeKRSFRPCpp_state hac R V m W (critical_value qnorm m alpha) i
        (IterativeKRSFRPCpp_init F B C) = some w →
      w.kept_factors.Pairwise (· < ·) ∧ ∀ x ∈ w.kept_factors, x < F.n_cols) ∧
    (∀ i w w', IterativeKRSFRPCpp_state hac R V m W (critical_value qnorm m alpha) i
        (IterativeKRSFRPCpp_init F B C) = some w →
      IterativeKRSFRPCpp_body hac R V m W (critical_value qnorm m alpha) w = .ok (.next w') →
      ∃ j, ∃ hj : j < w.kept_factors.length,
        w'.kept_factors = w.kept_factors.eraseIdx j ∧
        w'.kept_factors.length + 1 = w.kept_factors.length ∧
        (∀ x ∈ w'.kept_factors, x ∈ w.kept_factors) ∧
        w.kept_factors[j] ∉ w'.kept_factors) ∧
    (∀ v, IterativeKRSFRPCpp qnorm hac R F B C V m W alpha = .ok v →
      v.Pairwise (· < ·) ∧ ∀ x ∈ v, x < F.n_cols) := by
  refine ⟨rfl, ?_, ?_, ?_⟩
  · intro i w h
    exact kept_factors_sorted hac R V m W _ F.n_cols i _ w (init_kept_factors_sorted F B C) h
  · intro i w w' h hb
    have hs := kept_factors_sorted hac R V m W _ F.n_cols i _ w (init_kept_factors_sorted F B C) h
    obtain ⟨frp, se, t, j, tj, -, -, -, -, -, -, he, -, -, -⟩ := body_next hac R V m W _ hb
    obtain ⟨hj, hk⟩ := erase_ok he
    have := eraseIdx_strict w.kept_factors j hj hs.1
    refine ⟨j, hj, hk, ?_, ?_, ?_⟩
    · rw [hk]; exact this.2.1
    · rw [hk]; exact this.2.2.1
    · rw [hk]; exact this.2.2.2
  · intro v hv
    rcases loop_ok hac R V m W _ _ _ v hv with ⟨rfl, -⟩ | ⟨i, w, -, hw, hb⟩
    · exact ⟨List.Pairwise.nil, fun x hx => absurd hx (List.not_mem_nil x)⟩
    · have hs := kept_factors_sorted hac R V m W _ F.n_cols i _ w
        (init_kept_factors_sorted F B C) hw
      rw [(body_stop hac R V m W _ hb).1]
      exact hs

/-! ## C9 -/

/-- C9. For caller's matrices whose factor extents agree (`beta` has as many columns
and `covariance_factors_returns` as many rows as `factors` has columns), at the start
of every pass the working factor panel is the selection of the original factor columns
at `kept_factors`, the working loadings the selection of the original `beta` columns,
the working cross-covariance the selection of the original rows, in the order of
`kept_factors`; their factor extents equal the length of `kept_factors`. -/
theorem IterativeKRSFRPCpp_working_copies (qnorm : α → α) (hac : Mat α → Except Err (Mat α))
    (R F B C V m W : Mat α) (alpha : α) (hB : B.n_cols = F.n_cols) (hC : C.n_rows = F.n_cols)
    (i : ℕ) (w : Work α)
    (h : IterativeKRSFRPCpp_state hac R V m W (critical_value qnorm m alpha) i
      (IterativeKRSFRPCpp_init F B C) = some w) :
    w.factors_ = select_cols F w.kept_factors ∧ w.beta_ = select_cols B w.kept_factors ∧
      w.covariance_factors_returns_ = select_rows C w.kept_factors ∧
      w.factors_.n_cols = w.kept_factors.length ∧ w.beta_.n_cols = w.kept_factors.length ∧
      w.covariance_factors_returns_.n_rows = w.kept_factors.length := by
  obtain ⟨h1, h2, h3⟩ := working_copies_selection hac R V m W _ F B C hB hC i w h
  refine ⟨h1, h2, h3, ?_, ?_, ?_⟩
  · rw [h1]; rfl
  · rw [h2]; rfl
  · rw [h3]; rfl

/-- The statement of C9 at the second pass of a run on the example panel, which the
loop enters with `kept_factors = [0]`. -/
theorem IterativeKRSFRPCpp_working_copies_witness :
    panel_beta.n_cols = panel_factors.n_cols ∧
    panel_covariance_factors_returns.n_rows = panel_factors.n_cols ∧
    ∃ w, IterativeKRSFRPCpp_state unit_standard_errors panel_returns panel_variance_returns
        panel_mean_returns panel_variance_returns (critical_value qnorm_table panel_mean_returns 1) 1
        (IterativeKRSFRPCpp_init panel_factors panel_beta panel_covariance_factors_returns)
        = some w ∧
      w.kept_factors = [0] ∧
      w.factors_ = select_cols panel_factors w.kept_factors ∧
      w.beta_ = select_cols panel_beta w.kept_factors ∧
      w.covariance_factors_returns_ = select_rows panel_covariance_factors_returns w.kept_factors ∧
      w.factors_.n_cols = w.kept_factors.length ∧ w.beta_.n_cols = w.kept_factors.length ∧
      w.covariance_factors_returns_.n_rows = w.kept_factors.length := by
  refine ⟨by decide, by decide, ?_⟩
  have hs : (IterativeKRSFRPCpp_state unit_standard_errors panel_returns panel_variance_returns
        panel_mean_returns panel_variance_returns (critical_value qnorm_table panel_mean_returns 1) 1
        (IterativeKRSFRPCpp_init panel_factors panel_beta panel_covariance_factors_returns)).isSome
      = true := by decide!
  obtain ⟨w, hw⟩ := Option.isSome_iff_exists.mp hs
  have hk : ((IterativeKRSFRPCpp_state unit_standard_errors panel_returns panel_variance_returns
        panel_mean_returns panel_variance_returns (critical_value qnorm_table panel_mean_returns 1) 1
        (IterativeKRSFRPCpp_init panel_factors panel_beta panel_covariance_factors_returns)).map
        (fun w => w.kept_factors)) = some [0] := by decide!
  rw [hw] at hk
  simp only [Option.map_some', Option.some.injEq] at hk
  exact ⟨w, hw, hk, IterativeKRSFRPCpp_working_copies qnorm_table unit_standard_errors _ _ _ _ _ _ _ 1
    (by decide) (by decide) 1 w hw⟩

/-! ## C10 -/

/-- C10 fails on the example panel, whose `panel_beta` is the regression of the returns
on both factors.  The premium of the second factor is zero, so the first pass removes
it, with unit standard errors and indeed whatever non-zero standard errors the HAC
primitive returns (and whatever quantile function with a value that is not negative
at `1 - 0.05/4`).  The second pass is entered with the loadings `(1, 0)`, the first column
of `panel_beta`, whereas the regression of the returns on the remaining factor has the
loadings `(2, 1)`. -/
theorem IterativeKRSFRPCpp_loadings_not_recomputed :
    FRPCpp_beta panel_returns panel_factors = .ok panel_beta ∧
    1 < panel_mean_returns.n_elem ∧
    FRPCpp_beta panel_returns panel_factor_one = .ok (ofMatrix !![2; 1]) ∧
    StandardErrorsKRSFRPCpp unit_standard_errors (ofCol ![1, 0]) panel_returns panel_factors
      panel_beta panel_covariance_factors_returns panel_variance_returns panel_mean_returns
        = .ok (ofCol ![1, 1]) ∧
    ∀ (qnorm : ℚ → ℚ) (hac : Mat ℚ → Except Err (Mat ℚ)) (a b : ℚ),
      0 ≤ qnorm (79/80) → a ≠ 0 → b ≠ 0 →
      StandardErrorsKRSFRPCpp hac (ofCol ![1, 0]) panel_returns panel_factors panel_beta
        panel_covariance_factors_returns panel_variance_returns panel_mean_returns
          = .ok (ofCol ![a, b]) →
      ∃ w, IterativeKRSFRPCpp_state hac panel_returns panel_variance_returns
          panel_mean_returns panel_variance_returns
          (critical_value qnorm panel_mean_returns (1/20)) 1
          (IterativeKRSFRPCpp_init panel_factors panel_beta panel_covariance_factors_returns)
            = some w ∧
        w.kept_factors = [0] ∧ w.factors_ = panel_factor_one ∧
        w.beta_ = ofMatrix !![1; 0] ∧
        FRPCpp_beta panel_returns w.factors_ ≠ .ok w.beta_ := by
  refine ⟨by decide!, by decide, by decide!, by decide!, ?_⟩
  intro qnorm hac a b hq ha hb hse
  have hc : critical_value qnorm panel_mean_returns (1/20) = qnorm (79/80) := by
    rw [panel_critical_value]
    norm_num
  have hbody := panel_first_pass hac (critical_value qnorm panel_mean_returns (1/20)) a b
    (by rw [hc]; exact hq) ha hb hse
  refine ⟨_, by rw [state_succ_of_next _ _ _ _ _ _ hbody]; rfl, rfl, rfl, rfl, ?_⟩
  decide!

/-- C10, amended. The loadings are not recomputed. Given that the supplied `beta` is
`solve(cov(factors), cov(factors, returns)).t()` and that the factor extents of the
caller's matrices agree, in every pass the working loadings are the columns of the
supplied `beta` at `kept_factors`, and these are what `KRSFRPCpp` and
`StandardErrorsKRSFRPCpp` are called with; in the first pass (nothing removed yet) they
are the regression loadings of the returns on the working factors. -/
theorem IterativeKRSFRPCpp_loadings_are_selected_columns (qnorm : α → α)
    (hac : Mat α → Except Err (Mat α)) (R F B C V m W : Mat α) (alpha : α)
    (hreg : FRPCpp_beta R F = .ok B) (hB : B.n_cols = F.n_cols) (hC : C.n_rows = F.n_cols)
    (i : ℕ) (w : Work α)
    (h : IterativeKRSFRPCpp_state hac R V m W (critical_value qnorm m alpha) i
      (IterativeKRSFRPCpp_init F B C) = some w) :
    w.beta_ = select_cols B w.kept_factors ∧
    (i = 0 → FRPCpp_beta R w.factors_ = .ok w.beta_) ∧
    ∀ s, IterativeKRSFRPCpp_body hac R V m W (critical_value qnorm m alpha) w = .ok s →
      ∃ frp se, KRSFRPCpp (select_cols B w.kept_factors) m W = .ok frp ∧
        StandardErrorsKRSFRPCpp hac frp R (select_cols F w.kept_factors)
          (select_cols B w.kept_factors) (select_rows C w.kept_factors) V m = .ok se := by
  obtain ⟨s1, s2, s3⟩ := working_copies_selection hac R V m W _ F B C hB hC i w h
  refine ⟨s2, ?_, ?_⟩
  · rintro rfl
    simp only [IterativeKRSFRPCpp_state, Option.some.injEq] at h
    subst h
    exact hreg
  · intro s hs
    cases s with
    | stop v =>
      obtain ⟨-, frp, se, t, j, tj, h1, h2, -⟩ := body_stop hac R V m W _ hs
      rw [s1, s2, s3] at h2
      rw [s2] at h1
      exact ⟨frp, se, h1, h2⟩
    | next w' =>
      obtain ⟨frp, se, t, j, tj, h1, h2, -⟩ := body_next hac R V m W _ hs
      rw [s1, s2, s3] at h2
      rw [s2] at h1
      exact ⟨frp, se, h1, h2⟩

/-- The amended C10 at the second pass of the run on the example panel. -/
theorem IterativeKRSFRPCpp_loadings_are_selected_columns_witness :
    FRPCpp_beta panel_returns panel_factors = .ok panel_beta ∧
    panel_beta.n_cols = panel_factors.n_cols ∧
    panel_covariance_factors_returns.n_rows = panel_factors.n_cols ∧
    ∃ w, IterativeKRSFRPCpp_state unit_standard_errors panel_returns panel_variance_returns
        panel_mean_returns panel_variance_returns
        (critical_value qnorm_table panel_mean_returns (1/20)) 1
        (IterativeKRSFRPCpp_init panel_factors panel_beta panel_covariance_factors_returns)
          = some w ∧
      w.beta_ = select_cols panel_beta w.kept_factors ∧
      ((1 : ℕ) = 0 → FRPCpp_beta panel_returns w.factors_ = .ok w.beta_) ∧
      ∀ s, IterativeKRSFRPCpp_body unit_standard_errors panel_returns panel_variance_returns
          panel_mean_returns panel_variance_returns
          (critical_value qnorm_table panel_mean_returns (1/20)) w = .ok s →
        ∃ frp se, KRSFRPCpp (select_cols panel_beta w.kept_factors) panel_mean_returns
            panel_variance_returns = .ok frp ∧
          StandardErrorsKRSFRPCpp unit_standard_errors frp panel_returns
            (select_cols panel_factors w.kept_factors)
            (select_cols panel_beta w.kept_factors)
            (select_rows panel_covariance_factors_returns w.kept_factors)
            panel_variance_returns panel_mean_returns = .ok se := by
  refine ⟨by decide!, by decide, by decide, ?_⟩
  have hs : (IterativeKRSFRPCpp_state unit_standard_errors panel_returns panel_variance_returns
        panel_mean_returns panel_variance_returns
        (critical_value qnorm_table panel_mean_returns (1/20)) 1
        (IterativeKRSFRPCpp_init panel_factors panel_beta
          panel_covariance_factors_returns)).isSome = true := by decide!
  obtain ⟨w, hw⟩ := Option.isSome_iff_exists.mp hs
  exact ⟨w, hw, IterativeKRSFRPCpp_loadings_are_selected_columns qnorm_table
    unit_standard_errors _ _ _ _ _ _ _ (1/20) (by decide!) (by decide) (by decide) 1 w hw⟩

/-! ## C11 -/

/-- The function `arma::mean` on a panel with at least one row. -/
theorem mean_ofMatrix {T n : ℕ} (X : Matrix (Fin (T + 1)) (Fin n) α) :
    mean (ofMatrix X) = ofMatrix (fun (_ : Fin 1) j => sample_mean X j) := by
  unfold mean ofMatrix sample_mean
  simp

/-- The column means that `arma::cov` subtracts. -/
theorem mean_elem_ofMatrix {T n : ℕ} (X : Matrix (Fin (T + 1)) (Fin n) α) (j : Fin n) :
    (mean (ofMatrix X)).elem 0 j = sample_mean X j := by
  rw [mean_ofMatrix]
  unfold ofMatrix
  rw [Mat.elem_mk 1 n _ 0 j (by omega) j.2]

/-- A panel with at least two rows is read as it is. -/
theorem asObservations_ofMatrix {T n : ℕ} (X : Matrix (Fin (T + 2)) (Fin n) α) :
    asObservations (ofMatrix X) = ofMatrix X := by
  unfold asObservations
  rw [if_neg (by show T + 2 ≠ 1; omega)]

/-- The function `arma::cov(A, B)` on two panels with the same number of rows, at least
two, and at least one column each. -/
theorem cov2_ofMatrix {T K N : ℕ} (X : Matrix (Fin (T + 2)) (Fin K) α)
    (Y : Matrix (Fin (T + 2)) (Fin N) α) (hK : 0 < K) (hN : 0 < N) :
    cov2 (ofMatrix X) (ofMatrix Y) = .ok (ofMatrix (sample_covariance X Y)) := by
  have hX := asObservations_ofMatrix X
  have hY := asObservations_ofMatrix Y
  have hne : ¬ ((ofMatrix X).n_elem = 0 ∨ (ofMatrix Y).n_elem = 0) := by
    unfold Mat.n_elem ofMatrix
    simp only [Nat.mul_eq_zero]
    omega
  unfold cov2
  simp only
  generalize asObservations (ofMatrix X) = AA at hX ⊢
  generalize asObservations (ofMatrix Y) = BB at hY ⊢
  subst hX
  subst hY
  have hr : (ofMatrix X).n_rows = (ofMatrix Y).n_rows := rfl
  rw [dif_pos hr, if_neg hne]
  congr 1
  unfold ofMatrix
  congr 1
  funext i j
  unfold sample_covariance centred
  simp only [Matrix.mul_apply, Matrix.transpose_apply]
  congr 1
  apply Finset.sum_congr rfl
  intro t _
  have e1 := mean_elem_ofMatrix X i
  have e2 := mean_elem_ofMatrix Y j
  unfold ofMatrix at e1 e2
  rw [e1, e2]
  rfl

/-- The function `arma::cov(A)` on a panel with at least two rows and one column. -/
theorem cov_ofMatrix {T K : ℕ} (X : Matrix (Fin (T + 2)) (Fin K) α) (hK : 0 < K) :
    cov (ofMatrix X) = ofMatrix (sample_covariance X X) := by
  have hX := asObservations_ofMatrix X
  have hne : ¬ (ofMatrix X).n_elem = 0 := by
    unfold Mat.n_elem ofMatrix
    simp only [Nat.mul_eq_zero]
    omega
  unfold cov
  rw [if_neg hne]
  simp only
  generalize asObservations (ofMatrix X) = AA at hX ⊢
  subst hX
  unfold ofMatrix
  congr 1
  funext i j
  unfold sample_covariance centred
  simp only [Matrix.mul_apply, Matrix.transpose_apply]
  congr 1
  apply Finset.sum_congr rfl
  intro t _
  have e1 := mean_elem_ofMatrix X i
  have e2 := mean_elem_ofMatrix X j
  unfold ofMatrix at e1 e2
  rw [e1, e2]
/-- Returns that are an affine function of the factors have centred returns that are the
linear function of the centred factors. -/
theorem centred_affine {T K N : ℕ} (F : Matrix (Fin (T + 1)) (Fin K) α)
    (B : Matrix (Fin N) (Fin K) α) (c : Fin N → α) :
    centred (fun t i => c i + (B *ᵥ F t) i) = centred F * Bᵀ := by
  have hT : ((T + 1 : ℕ) : α) ≠ 0 := Nat.cast_ne_zero.mpr (Nat.succ_ne_zero T)
  funext t i
  unfold centred sample_mean
  simp only [Matrix.mul_apply, Matrix.transpose_apply, Matrix.mulVec, Matrix.dotProduct,
    Finset.sum_add_distrib, Finset.sum_const, Finset.card_univ, Fintype.card_fin, nsmul_eq_mul,
    sub_mul, Finset.sum_sub_distrib]
  rw [Finset.sum_comm]
  have h1 : ∀ k : Fin K, ∑ s : Fin (T + 1), B i k * F s k = B i k * ∑ s : Fin (T + 1), F s k := by
    intro k
    rw [Finset.mul_sum]
  simp only [h1]
  have h2 : (∑ k : Fin K, (∑ s : Fin (T + 1), F s k) / ((T + 1 : ℕ) : α) * B i k)
      = (∑ k : Fin K, B i k * ∑ s : Fin (T + 1), F s k) / ((T + 1 : ℕ) : α) := by
    rw [Finset.sum_div]
    apply Finset.sum_congr rfl
    intro k _
    ring
  have h3 : (∑ k : Fin K, F t k * B i k) = ∑ k : Fin K, B i k * F t k := by
    apply Finset.sum_congr rfl
    intro k _
    ring
  rw [h2, h3]
  field_simp
  ring

/-- The covariance of the factors with returns that are an affine function of them. -/
theorem sample_covariance_affine {T K N : ℕ} (F : Matrix (Fin (T + 1)) (Fin K) α)
    (B : Matrix (Fin N) (Fin K) α) (c : Fin N → α) :
    sample_covariance F (fun t i => c i + (B *ᵥ F t) i) = sample_covariance F F * Bᵀ := by
  funext i j
  have h : sample_covariance F (fun t i => c i + (B *ᵥ F t) i) i j
      = (((centred F)ᵀ * centred F) * Bᵀ) i j / norm_val (T + 1) := by
    unfold sample_covariance
    rw [centred_affine, ← Matrix.mul_assoc]
  rw [h, Matrix.mul_apply, Matrix.mul_apply, Finset.sum_div]
  apply Finset.sum_congr rfl
  intro k _
  unfold sample_covariance
  ring

/-- A panel with at most one row has the sample covariance zero. -/
theorem sample_covariance_eq_zero {T K : ℕ} (F : Matrix (Fin T) (Fin K) α) (hT : T ≤ 1) :
    sample_covariance F F = 0 := by
  funext i j
  unfold sample_covariance centred sample_mean
  rcases T with _ | _ | T
  · simp [Matrix.mul_apply]
  · simp [Matrix.mul_apply]
  · omega

/-- C11. For a factors panel with at least one column whose sample covariance matrix is
invertible, and returns of at least one asset that are an affine function of the
factors, `r_t = c + B f_t` in every period, the loadings `FRPCpp` computes,
`solve(cov(factors), cov(factors, returns)).t()`, are `B`. -/
theorem FRPCpp_beta_recovers_loadings {T K N : ℕ} (F : Matrix (Fin T) (Fin K) α)
    (B : Matrix (Fin N) (Fin K) α) (c : Fin N → α) (hK : 0 < K) (hN : 0 < N)
    (hS : (sample_covariance F F).det ≠ 0) :
    FRPCpp_beta (ofMatrix (fun t i => c i + (B *ᵥ F t) i)) (ofMatrix F) = .ok (ofMatrix B) := by
  have hT : 2 ≤ T := by
    by_contra hc
    apply hS
    rw [sample_covariance_eq_zero F (by omega)]
    haveI : Nonempty (Fin K) := ⟨⟨0, hK⟩⟩
    exact Matrix.det_zero this
  obtain ⟨T, rfl⟩ : ∃ T', T = T' + 2 := ⟨T - 2, by omega⟩
  have hu : IsUnit (sample_covariance F F).det := isUnit_iff_ne_zero.mpr hS
  unfold FRPCpp_beta
  simp only [bind, Except.bind, pure, Except.pure]
  rw [cov2_ofMatrix F _ hK hN, cov_ofMatrix F hK]
  simp only
  rw [sample_covariance_affine, Mat.solve_ofMatrix _ _ hS, ← Matrix.mul_assoc,
    Matrix.nonsing_inv_mul _ hu, Matrix.one_mul]
  simp only [Mat.t_ofMatrix, Matrix.transpose_transpose]

/-- The statement of C11 at the example panel: the returns `r₀ = 1 + f₀ + f₁`, `r₁ = f₁` of
`panel_returns` are an affine function of the factors, and the loadings computed are
the coefficients. -/
theorem FRPCpp_beta_recovers_loadings_witness :
    0 < 2 ∧ 0 < 2 ∧
    (sample_covariance (!![1, 1; 0, 1; -1, -1; 0, -1] : Matrix (Fin 4) (Fin 2) ℚ)
      !![1, 1; 0, 1; -1, -1; 0, -1]).det ≠ 0 ∧
    ofMatrix (fun t i => (![1, 0] : Fin 2 → ℚ) i +
      ((!![1, 1; 0, 1] : Matrix (Fin 2) (Fin 2) ℚ) *ᵥ
        (!![1, 1; 0, 1; -1, -1; 0, -1] : Matrix (Fin 4) (Fin 2) ℚ) t) i) = panel_returns ∧
    FRPCpp_beta
      (ofMatrix (fun t i => (![1, 0] : Fin 2 → ℚ) i +
        ((!![1, 1; 0, 1] : Matrix (Fin 2) (Fin 2) ℚ) *ᵥ
          (!![1, 1; 0, 1; -1, -1; 0, -1] : Matrix (Fin 4) (Fin 2) ℚ) t) i))
      (ofMatrix (!![1, 1; 0, 1; -1, -1; 0, -1] : Matrix (Fin 4) (Fin 2) ℚ))
      = .ok (ofMatrix !![1, 1; 0, 1]) :=
  ⟨by decide, by decide, by decide!, by decide!,
    FRPCpp_beta_recovers_loadings _ _ _ (by decide) (by decide) (by decide!)⟩

/-! ## C12

`KRSFRPCpp` has no check of its own for a singular weighting matrix: what happens is
decided inside `arma::solve`.  The embedding of `solve` covers regular systems only and
marks every other call as `.unsupported`, so it says nothing about the exception, the
warning or the approximate solution Armadillo produces there. -/

/-- On a singular weighting matrix the first call of `solve` in `KRSFRPCpp` is outside
the embedding. -/
theorem KRSFRPCpp_singular_outside {N K : ℕ} (beta : Matrix (Fin N) (Fin K) α)
    (mean_returns : Mat α) (W : Matrix (Fin N) (Fin N) α) (h : W.det = 0) :
    solve (ofMatrix W) (ofMatrix beta) = .error .unsupported ∧
    KRSFRPCpp (ofMatrix beta) mean_returns (ofMatrix W) = .error .unsupported := by
  have hs : solve (ofMatrix W) (ofMatrix beta) = .error .unsupported := by
    simp [solve, ofMatrix, h]
  refine ⟨hs, ?_⟩
  unfold KRSFRPCpp
  rw [hs]
  rfl

/-! ## C13 -/

/-- Without standard errors `FRPCpp` does not call the HAC primitive. -/
theorem FRPCpp_false_eq (hac hac' : Mat α → Except Err (Mat α)) (R F : Mat α) (robust : Bool) :
    FRPCpp hac R F robust false = FRPCpp hac' R F robust false := by
  unfold FRPCpp
  simp only [Bool.false_eq_true, if_false]

/-- C13 fails when a panel has a single row, which `arma::cov` reads as a column of
observations: for the returns `(1, 3, 2)` of one asset (three rows) and the factors panel
with the single row `(1, 2, 4)` the row counts differ, yet `cov(factors, returns)` is
computed, and without standard errors `FRPCpp` returns the premium `28/3` for either
estimator, whatever the HAC primitive; with standard errors it fails only after the
loadings and the premia have been solved for. -/
theorem FRPCpp_row_mismatch_counterexample :
    single_asset_returns.n_rows ≠ single_row_factors.n_rows ∧
    cov2 single_row_factors single_asset_returns = .ok (ofMatrix !![1/2]) ∧
    FRPCpp_beta single_asset_returns single_row_factors = .ok (ofMatrix !![3/14]) ∧
    (∀ (hac : Mat ℚ → Except Err (Mat ℚ)) (robust : Bool),
      (FRPCpp hac single_asset_returns single_row_factors robust false).map
        (fun r => r.risk_premia) = .ok (ofCol ![28/3])) ∧
    FMFRPCpp (ofMatrix !![3/14]) (mean single_asset_returns).t = .ok (ofCol ![28/3]) ∧
    ∀ robust : Bool,
      FRPCpp unit_standard_errors single_asset_returns single_row_factors robust true
        = .error .logic_error := by
  refine ⟨by decide, by decide!, by decide!, ?_, by decide!, ?_⟩
  · intro hac robust
    rw [FRPCpp_false_eq hac unit_standard_errors]
    revert robust
    decide!
  · intro robust
    have h : ∀ b : Bool,
        (match FRPCpp unit_standard_errors single_asset_returns single_row_factors b true with
          | .error e => decide (e = Err.logic_error)
          | .ok _ => false) = true := by decide!
    have h2 := h robust
    split at h2
    · rename_i e he
      rw [he, of_decide_eq_true h2]
    · cases h2

/-- C13, amended. When the numbers of observations that `arma::cov` reads off the two
panels differ (the row count, and for a panel with a single row its column count),
`cov(factors, returns)` fails with Armadillo's error for extents that do not fit, and
so does `FRPCpp` in both branches; no system has been solved by then, the loadings
themselves have no value. -/
theorem FRPCpp_row_mismatch (hac : Mat α → Except Err (Mat α)) (R F : Mat α)
    (h : (asObservations F).n_rows ≠ (asObservations R).n_rows) :
    cov2 F R = .error .logic_error ∧ FRPCpp_beta R F = .error .logic_error ∧
    ∀ robust include_standard_errors : Bool,
      FRPCpp hac R F robust include_standard_errors = .error .logic_error := by
  have hc : cov2 F R = .error .logic_error := by
    unfold cov2
    simp only
    rw [dif_neg h]
  refine ⟨hc, ?_, ?_⟩
  · unfold FRPCpp_beta
    simp only [hc, bind, Except.bind]
  · intro robust se
    unfold FRPCpp FRPCpp_beta
    cases se <;> simp only [hc, bind, Except.bind, if_true, Bool.false_eq_true, if_false]

/-- The amended C13 at the example returns (four periods) and a factor observed over
three periods. -/
theorem FRPCpp_row_mismatch_witness :
    (asObservations short_factor).n_rows ≠ (asObservations panel_returns).n_rows ∧
    cov2 short_factor panel_returns = .error .logic_error ∧
    FRPCpp_beta panel_returns short_factor = .error .logic_error ∧
    ∀ robust include_standard_errors : Bool,
      FRPCpp unit_standard_errors panel_returns short_factor robust include_standard_errors
        = .error .logic_error :=
  ⟨by decide, FRPCpp_row_mismatch unit_standard_errors panel_returns short_factor (by decide)⟩

/-- Panels whose row counts differ and of which neither has a single row are a case of
the amended C13. -/
theorem asObservations_n_rows_ne (R F : Mat α) (h : R.n_rows ≠ F.n_rows) (hR : R.n_rows ≠ 1)
    (hF : F.n_rows ≠ 1) : (asObservations F).n_rows ≠ (asObservations R).n_rows := by
  unfold asObservations
  rw [if_neg hF, if_neg hR]
  exact fun e => h e.symm

/-! ## The standard-error functions on statically sized panels -/

/-- The expression `A.each_row() - r` on statically sized matrices. -/
theorem each_row_sub_ofMatrix {r c : ℕ} (A : Matrix (Fin r) (Fin c) α)
    (v : Matrix (Fin 1) (Fin c) α) :
    each_row_sub (ofMatrix A) (ofMatrix v) = .ok (ofMatrix (fun i j => A i j - v 0 j)) := by
  simp [each_row_sub, ofMatrix]

/-- The expression `A.each_col() % v` on statically sized matrices. -/
theorem each_col_schur_ofMatrix {r c : ℕ} (A : Matrix (Fin r) (Fin c) α)
    (v : Matrix (Fin r) (Fin 1) α) :
    each_col_schur (ofMatrix A) (ofMatrix v) = .ok (ofMatrix (fun i j => A i j * v i 0)) := by
  simp [each_col_schur, ofMatrix]

/-- The difference of statically sized matrices of the same extents. -/
theorem sub_ofMatrix {r c : ℕ} (A B : Matrix (Fin r) (Fin c) α) :
    sub (ofMatrix A) (ofMatrix B) = .ok (ofMatrix (A - B)) := by
  unfold Mat.sub zipSame ofMatrix
  rw [dif_pos ⟨rfl, rfl⟩]
  rfl

/-- The sum of statically sized matrices of the same extents. -/
theorem add_ofMatrix {r c : ℕ} (A B : Matrix (Fin r) (Fin c) α) :
    add (ofMatrix A) (ofMatrix B) = .ok (ofMatrix (A + B)) := by
  unfold Mat.add zipSame ofMatrix
  rw [dif_pos ⟨rfl, rfl⟩]
  rfl

/-- The function `arma::inv_sympd` on a symmetric matrix whose leading principal minors
are positive. -/
theorem inv_sympd_ofMatrix {n : ℕ} (M : Matrix (Fin n) (Fin n) α) (hs : Mᵀ = M)
    (hpos : ∀ k : Fin (n + 1), 0 < (M.submatrix (Fin.castLE k.is_le) (Fin.castLE k.is_le)).det) :
    inv_sympd (ofMatrix M) = .ok (ofMatrix M⁻¹) := by
  unfold inv_sympd ofMatrix
  simp only [dite_true]
  have e : M.submatrix id (Fin.cast (rfl : n = n)) = M := rfl
  simp only [e]
  rw [if_pos hs, if_pos hpos, Mat.inverse_eq_inv]
/-- The sample covariance matrix of a panel is symmetric. -/
theorem sample_covariance_transpose {T K : ℕ} (F : Matrix (Fin T) (Fin K) α) :
    (sample_covariance F F)ᵀ = sample_covariance F F := by
  funext i j
  unfold sample_covariance
  simp only [Matrix.transpose_apply, Matrix.mul_apply]
  congr 1
  apply Finset.sum_congr rfl
  intro t _
  ring

/-- The locals of `StandardErrorsKRSFRPCpp` on statically sized inputs: the pricing
errors are `V⁻¹ m - V⁻¹ beta krs_frp`, and `term2` and `term3` are another matrix and
`term1`, every row `t` multiplied by the entry `t` of the centred returns times the
pricing errors. -/
theorem StandardErrorsKRSFRPCpp_locals_ofMatrix {T N K : ℕ} (frp : Fin K → α)
    (R : Matrix (Fin (T + 2)) (Fin N) α) (F : Matrix (Fin (T + 2)) (Fin K) α)
    (B : Matrix (Fin N) (Fin K) α) (C : Mat α) (V : Matrix (Fin N) (Fin N) α)
    (m : Fin N → α) (hK : 0 < K) (hV : V.det ≠ 0) (hH : (Bᵀ * (V⁻¹ * B)).det ≠ 0)
    (hS : ∀ k : Fin (K + 1), 0 < ((sample_covariance F F).submatrix
      (Fin.castLE k.is_le) (Fin.castLE k.is_le)).det) :
    ∃ fac_cen_hkrs_var_fac_inv term1 term4 : Matrix (Fin (T + 2)) (Fin K) α,
      StandardErrorsKRSFRPCpp_locals (ofCol frp) (ofMatrix R) (ofMatrix F) (ofMatrix B) C
        (ofMatrix V) (ofCol m) = .ok
        ⟨ofMatrix (V⁻¹ * col (Fin 1) m - V⁻¹ * B * col (Fin 1) frp),
         ofMatrix term1,
         ofMatrix (fun i j => fac_cen_hkrs_var_fac_inv i j *
           ((Matrix.of fun i j => R i j - m j) *
             (V⁻¹ * col (Fin 1) m - V⁻¹ * B * col (Fin 1) frp)) i 0),
         ofMatrix (fun i j => term1 i j *
           ((Matrix.of fun i j => R i j - m j) *
             (V⁻¹ * col (Fin 1) m - V⁻¹ * B * col (Fin 1) frp)) i 0),
         ofMatrix term4⟩ := by
  refine ⟨(Matrix.of fun i j => F i j - sample_mean F j)
      * ((Bᵀ * (V⁻¹ * B))⁻¹ * (sample_covariance F F)⁻¹)ᵀ,
    (Matrix.of fun i j => R i j - m j)
      * ((Bᵀ * (V⁻¹ * B))⁻¹ * (V⁻¹ * B)ᵀ)ᵀ, ?_⟩
  apply Exists.intro
  simp only [StandardErrorsKRSFRPCpp_locals, Mat.ofCol_eq, Mat.t_ofMatrix, Mat.mul_ofMatrix,
    inv_sympd_ofMatrix _ (sample_covariance_transpose F) hS, each_row_sub_ofMatrix,
    mean_ofMatrix, cov_ofMatrix _ hK, Mat.solve_ofMatrix _ _ hV, Mat.solve_ofMatrix _ _ hH,
    sub_ofMatrix, each_col_schur_ofMatrix, bind, Except.bind, pure, Except.pure]
  rfl
/-- Positive leading principal minors include the determinant. -/
theorem det_pos_of_leading_minors {n : ℕ} (M : Matrix (Fin n) (Fin n) α)
    (h : ∀ k : Fin (n + 1), 0 < (M.submatrix (Fin.castLE k.is_le) (Fin.castLE k.is_le)).det) :
    0 < M.det :=
  h (Fin.last n)

/-- A panel with at least one column and an invertible sample covariance matrix has at
least two rows. -/
theorem two_le_of_sample_covariance_det {T K : ℕ} (F : Matrix (Fin T) (Fin K) α) (hK : 0 < K)
    (hS : (sample_covariance F F).det ≠ 0) : 2 ≤ T := by
  by_contra hc
  apply hS
  rw [sample_covariance_eq_zero F (by omega)]
  haveI : Nonempty (Fin K) := ⟨⟨0, hK⟩⟩
  exact Matrix.det_zero this

/-- The deviations from the sample mean sum to zero in every column. -/
theorem sum_sub_sample_mean {T N : ℕ} (R : Matrix (Fin (T + 1)) (Fin N) α) (i : Fin N) :
    ∑ t, (R t i - sample_mean R i) = 0 := by
  have hT : ((T + 1 : ℕ) : α) ≠ 0 := Nat.cast_ne_zero.mpr (Nat.succ_ne_zero T)
  unfold sample_mean
  rw [Finset.sum_sub_distrib, Finset.sum_const, Finset.card_univ, Fintype.card_fin,
    nsmul_eq_mul, mul_div_cancel₀ _ hT, sub_self]

/-- The columns of the centred projection `A (r_t - mean_returns)`, the local `gamma` of
`StandardErrorsFRPCpp`, sum to zero when `mean_returns` is the column mean of
`returns`. -/
theorem gamma_column_sum {T N K : ℕ} (A : Matrix (Fin K) (Fin N) α)
    (R : Matrix (Fin (T + 1)) (Fin N) α) (k : Fin K) :
    ∑ t, (A *ᵥ fun i => R t i - sample_mean R i) k = 0 := by
  simp only [Matrix.mulVec, Matrix.dotProduct]
  rw [Finset.sum_comm]
  simp only [← Finset.mul_sum, sum_sub_sample_mean, mul_zero, Finset.sum_const_zero]

/-- The columns of the mean term of `StandardErrorsFRPCpp`, whose row `t` is
`A (r_t - mean_returns) - A mean_returns`, sum to `-T (A mean_returns)` when
`mean_returns` is the column mean of `returns`. -/
theorem mean_term_column_sum {T N K : ℕ} (A : Matrix (Fin K) (Fin N) α)
    (R : Matrix (Fin (T + 1)) (Fin N) α) (k : Fin K) :
    ∑ t, ((A *ᵥ fun i => R t i - sample_mean R i) k - (A *ᵥ sample_mean R) k)
      = -(((T + 1 : ℕ) : α) * (A *ᵥ sample_mean R) k) := by
  rw [Finset.sum_sub_distrib, gamma_column_sum, Finset.sum_const, Finset.card_univ,
    Fintype.card_fin, nsmul_eq_mul, zero_sub]

/-- C15. On the example panel the supplied `mean_returns` is the column mean of
`returns`, and `a_matrix` is `[[1, -1], [0, 1]]`.  The local `gamma` of
`StandardErrorsFRPCpp` already has the rows `A (r_t - mean_returns)`; the mean term
handed to the HAC primitive is `gamma` less `A mean_returns = (1, 0)` in every row, so
its rows are `A (r_t - mean_returns) - A mean_returns` and its first column sums to
`-4`, not to zero. -/
theorem StandardErrorsFRPCpp_mean_term_example :
    (mean panel_returns).t = panel_mean_returns ∧
    (StandardErrorsFRPCpp_locals (ofCol ![1, 0]) panel_returns panel_factors panel_beta
        panel_covariance_factors_returns panel_variance_returns panel_mean_returns).map
      (fun l => decide (
        l.a_matrix = ofMatrix !![1, -1; 0, 1] ∧
        l.gamma = ofMatrix (fun (t : Fin 4) (k : Fin 2) =>
          ((!![1, -1; 0, 1] : Matrix (Fin 2) (Fin 2) ℚ) *ᵥ
            fun i => (!![3, 1; 2, 1; -1, -1; 0, -1] : Matrix (Fin 4) (Fin 2) ℚ) t i
              - ![1, 0] i) k) ∧
        l.gamma = ofMatrix !![1, 1; 0, 1; -1, -1; 0, -1] ∧
        l.mean_term = ofMatrix !![0, 1; -1, 1; -2, -1; -1, -1] ∧
        l.mean_term ≠ l.gamma ∧
        (List.range 4).map (fun t => l.mean_term.elem t 0) = [0, -1, -2, -1] ∧
        ((List.range 4).map (fun t => l.mean_term.elem t 0)).sum = -4)) = .ok true := by
  decide!

/-! ## C16 -/

/-- Of several least entries `index_min` reports the first; an entry that is NaN is
passed over, also at the position `0`; and when no entry is a number the position `0`
is reported. -/
theorem index_min_first_of_ties :
    index_min (ofCol ![IEEE.num (3 : ℚ), .num 1, .num 2, .num 1]) = .ok 1 ∧
    index_min (ofCol ![IEEE.nan, IEEE.num (3 : ℚ), .num 1, .nan, .num 1]) = .ok 2 ∧
    index_min (ofCol ![IEEE.inf, IEEE.nan, (IEEE.inf : IEEE ℚ)]) = .ok 0 ∧
    index_min (ofCol ![IEEE.nan, (IEEE.inf : IEEE ℚ)]) = .ok 0 := by
  decide!

/-! ## C17 -/

/-- C17. For every panel and either value of `misspecification_robust`: when `FRPCpp`
with `include_standard_errors = true` returns, `FRPCpp` with
`include_standard_errors = false` returns the same `risk_premia` (and no standard
errors); and when the latter fails, the former fails with the same error. -/
theorem FRPCpp_risk_premia_same (hac : Mat α → Except Err (Mat α)) (R F : Mat α)
    (robust : Bool) :
    (∀ r, FRPCpp hac R F robust true = .ok r →
      FRPCpp hac R F robust false = .ok ⟨r.risk_premia, none⟩) ∧
    (∀ e, FRPCpp hac R F robust false = .error e → FRPCpp hac R F robust true = .error e) := by
  unfold FRPCpp FRPCpp_beta
  simp only [if_true, Bool.false_eq_true, if_false, bind, Except.bind, pure, Except.pure]
  generalize cov2 F R = x
  cases x with
  | error e0 => exact ⟨fun r h => (by cases h), fun e h => h⟩
  | ok c =>
    simp only
    generalize solve (cov F) c = y
    cases y with
    | error e0 => exact ⟨fun r h => (by cases h), fun e h => h⟩
    | ok b =>
      simp only
      cases robust with
      | true =>
        simp only [if_true]
        generalize KRSFRPCpp b.t (mean R).t (cov R) = z
        cases z with
        | error e0 => exact ⟨fun r h => (by cases h), fun e h => h⟩
        | ok frp =>
          simp only
          refine ⟨?_, fun e h => by cases h⟩
          intro r h
          split at h
          · cases h
          · simp only [Except.ok.injEq] at h
            rw [← h]
      | false =>
        simp only [Bool.false_eq_true, if_false]
        generalize FMFRPCpp b.t (mean R).t = z
        cases z with
        | error e0 => exact ⟨fun r h => (by cases h), fun e h => h⟩
        | ok frp =>
          simp only
          refine ⟨?_, fun e h => by cases h⟩
          intro r h
          split at h
          · cases h
          · simp only [Except.ok.injEq] at h
            rw [← h]

/-- A run of `FRPCpp` on the example panel with standard errors, for either estimator,
returns the premia `(1, 0)`, as the run without standard errors does. -/
theorem FRPCpp_risk_premia_same_example :
    ∀ robust : Bool,
      (FRPCpp unit_standard_errors panel_returns panel_factors robust true).map
        (fun r => r.risk_premia) = .ok (ofCol ![1, 0]) ∧
      (FRPCpp unit_standard_errors panel_returns panel_factors robust false).map
        (fun r => r.risk_premia) = .ok (ofCol ![1, 0]) := by
  decide!

/-! ## C18 -/

/-- C18. For a symmetric positive definite weighting matrix and loadings of full column
rank, when the mean returns are `beta * lambda_true` exactly, `KRSFRPCpp` returns
`lambda_true`. -/
theorem KRSFRPCpp_recovers_lambda_true {N K : ℕ} (beta : Matrix (Fin N) (Fin K) α)
    (lambda_true : Fin K → α) (W : Matrix (Fin N) (Fin N) α) (hsymm : Wᵀ = W)
    (hpd : ∀ x : Fin N → α, x ≠ 0 → 0 < x ⬝ᵥ W *ᵥ x) (hrank : beta.rank = K) :
    KRSFRPCpp (ofMatrix beta) (ofCol (beta *ᵥ lambda_true)) (ofMatrix W)
      = .ok (ofCol lambda_true) := by
  have _ := hsymm
  have hW := det_ne_zero_of_posdef W hpd
  have hH := krs_gram_det_ne_zero beta W hpd hrank
  have hHu : IsUnit ((W⁻¹ * beta)ᵀ * beta).det := isUnit_iff_ne_zero.mpr hH
  rw [Mat.ofCol_eq, KRSFRPCpp_ofMatrix _ _ _ hW hH, Mat.ofCol_eq, Matrix.col_mulVec,
    Matrix.mul_assoc, ← Matrix.mul_assoc (W⁻¹ * beta)ᵀ, ← Matrix.mul_assoc,
    Matrix.nonsing_inv_mul _ hHu, Matrix.one_mul]

/-- The statement of C18 at `beta_3x2`, `weights_3x3` and the premia `(2, 5)`. -/
theorem KRSFRPCpp_recovers_lambda_true_witness :
    weights_3x3ᵀ = weights_3x3 ∧ (∀ x : Fin 3 → ℚ, x ≠ 0 → 0 < x ⬝ᵥ weights_3x3 *ᵥ x) ∧
    beta_3x2.rank = 2 ∧
    KRSFRPCpp (ofMatrix beta_3x2) (ofCol (beta_3x2 *ᵥ ![2, 5])) (ofMatrix weights_3x3)
      = .ok (ofCol ![2, 5]) :=
  ⟨by decide!, weights_3x3_posdef, rank_of_gram_det_ne_zero _ (by decide!),
    KRSFRPCpp_recovers_lambda_true beta_3x2 ![2, 5] weights_3x3 (by decide!)
      weights_3x3_posdef (rank_of_gram_det_ne_zero _ (by decide!))⟩

/-! ## C19 -/

/-- C19. Take a panel of returns and of factors over the same periods, at least one
factor, an invertible `variance_returns`, and let the other systems the function solves
be regular (`beta^T variance_returns^-1 beta` invertible, the leading principal minors
of the sample covariance matrix of the factors positive).  When the supplied premia
price the mean returns exactly, `mean_returns = beta * krs_frp`, the pricing errors
`var_ret_inv_err_krs` of `StandardErrorsKRSFRPCpp` are zero, `term2` and `term3` are
zero matrices, and the matrix handed to the HAC primitive is `term1 - term4`. -/
theorem StandardErrorsKRSFRPCpp_exact_pricing {T N K : ℕ} (frp : Fin K → α)
    (R : Matrix (Fin T) (Fin N) α) (F : Matrix (Fin T) (Fin K) α)
    (B : Matrix (Fin N) (Fin K) α) (C : Mat α) (V : Matrix (Fin N) (Fin N) α)
    (hK : 0 < K) (hV : V.det ≠ 0) (hH : (Bᵀ * (V⁻¹ * B)).det ≠ 0)
    (hS : ∀ k : Fin (K + 1), 0 < ((sample_covariance F F).submatrix
      (Fin.castLE k.is_le) (Fin.castLE k.is_le)).det) :
    ∃ term1 term4 : Matrix (Fin T) (Fin K) α,
      StandardErrorsKRSFRPCpp_locals (ofCol frp) (ofMatrix R) (ofMatrix F) (ofMatrix B) C
        (ofMatrix V) (ofCol (B *ᵥ frp)) = .ok
        ⟨ofMatrix (0 : Matrix (Fin N) (Fin 1) α), ofMatrix term1,
         ofMatrix (0 : Matrix (Fin T) (Fin K) α), ofMatrix (0 : Matrix (Fin T) (Fin K) α),
         ofMatrix term4⟩ ∧
      sub (ofMatrix term1) (ofMatrix term4) = .ok (ofMatrix (term1 - term4)) ∧
      StandardErrorsKRSFRPCpp_terms (ofCol frp) (ofMatrix R) (ofMatrix F) (ofMatrix B) C
        (ofMatrix V) (ofCol (B *ᵥ frp)) = .ok (ofMatrix (term1 - term4)) ∧
      ∀ hac : Mat α → Except Err (Mat α),
        StandardErrorsKRSFRPCpp hac (ofCol frp) (ofMatrix R) (ofMatrix F) (ofMatrix B) C
          (ofMatrix V) (ofCol (B *ᵥ frp)) = hac (ofMatrix (term1 - term4)) := by
  obtain ⟨T, rfl⟩ : ∃ T', T = T' + 2 :=
    ⟨T - 2, by
      have := two_le_of_sample_covariance_det F hK (det_pos_of_leading_minors _ hS).ne'
      omega⟩
  obtain ⟨x2, t1, t4, h⟩ :=
    StandardErrorsKRSFRPCpp_locals_ofMatrix frp R F B C V (B *ᵥ frp) hK hV hH hS
  have he : V⁻¹ * col (Fin 1) (B *ᵥ frp) - V⁻¹ * B * col (Fin 1) frp = 0 := by
    rw [Matrix.col_mulVec, Matrix.mul_assoc, sub_self]
  rw [he] at h
  simp only [Matrix.mul_zero, Matrix.zero_apply, mul_zero] at h
  have hterms : StandardErrorsKRSFRPCpp_terms (ofCol frp) (ofMatrix R) (ofMatrix F)
      (ofMatrix B) C (ofMatrix V) (ofCol (B *ᵥ frp)) = .ok (ofMatrix (t1 - t4)) := by
    have hz : (fun (_ : Fin (T + 2)) (_ : Fin K) => (0 : α)) = 0 := rfl
    simp only [StandardErrorsKRSFRPCpp_terms, h, hz, add_ofMatrix, sub_ofMatrix, bind,
      Except.bind, add_zero, sub_zero]
  refine ⟨t1, t4, h, sub_ofMatrix t1 t4, hterms, ?_⟩
  intro hac
  rw [StandardErrorsKRSFRPCpp_eq, hterms]
  rfl
/-- The statement of C19 on the example panel, whose mean returns `(1, 0)` are priced
exactly by the premia `(1, 0)`. -/
theorem StandardErrorsKRSFRPCpp_exact_pricing_witness :
    0 < 2 ∧
    (!![10/3, 2; 2, 4/3] : Matrix (Fin 2) (Fin 2) ℚ).det ≠ 0 ∧
    ((!![1, 1; 0, 1] : Matrix (Fin 2) (Fin 2) ℚ)ᵀ
      * ((!![10/3, 2; 2, 4/3] : Matrix (Fin 2) (Fin 2) ℚ)⁻¹ * !![1, 1; 0, 1])).det ≠ 0 ∧
    (∀ k : Fin (2 + 1), 0 < ((sample_covariance
        (!![1, 1; 0, 1; -1, -1; 0, -1] : Matrix (Fin 4) (Fin 2) ℚ)
        !![1, 1; 0, 1; -1, -1; 0, -1]).submatrix
      (Fin.castLE k.is_le) (Fin.castLE k.is_le)).det) ∧
    (!![1, 1; 0, 1] : Matrix (Fin 2) (Fin 2) ℚ) *ᵥ ![1, 0] = ![1, 0] ∧
    ∃ term1 term4 : Matrix (Fin 4) (Fin 2) ℚ,
      StandardErrorsKRSFRPCpp_locals (ofCol ![1, 0]) (ofMatrix !![3, 1; 2, 1; -1, -1; 0, -1])
        (ofMatrix !![1, 1; 0, 1; -1, -1; 0, -1]) (ofMatrix !![1, 1; 0, 1])
        panel_covariance_factors_returns (ofMatrix !![10/3, 2; 2, 4/3])
        (ofCol ((!![1, 1; 0, 1] : Matrix (Fin 2) (Fin 2) ℚ) *ᵥ ![1, 0])) = .ok
        ⟨ofMatrix (0 : Matrix (Fin 2) (Fin 1) ℚ), ofMatrix term1,
         ofMatrix (0 : Matrix (Fin 4) (Fin 2) ℚ), ofMatrix (0 : Matrix (Fin 4) (Fin 2) ℚ),
         ofMatrix term4⟩ ∧
      sub (ofMatrix term1) (ofMatrix term4) = .ok (ofMatrix (term1 - term4)) ∧
      StandardErrorsKRSFRPCpp_terms (ofCol ![1, 0]) (ofMatrix !![3, 1; 2, 1; -1, -1; 0, -1])
        (ofMatrix !![1, 1; 0, 1; -1, -1; 0, -1]) (ofMatrix !![1, 1; 0, 1])
        panel_covariance_factors_returns (ofMatrix !![10/3, 2; 2, 4/3])
        (ofCol ((!![1, 1; 0, 1] : Matrix (Fin 2) (Fin 2) ℚ) *ᵥ ![1, 0]))
        = .ok (ofMatrix (term1 - term4)) ∧
      ∀ hac : Mat ℚ → Except Err (Mat ℚ),
        StandardErrorsKRSFRPCpp hac (ofCol ![1, 0]) (ofMatrix !![3, 1; 2, 1; -1, -1; 0, -1])
          (ofMatrix !![1, 1; 0, 1; -1, -1; 0, -1]) (ofMatrix !![1, 1; 0, 1])
          panel_covariance_factors_returns (ofMatrix !![10/3, 2; 2, 4/3])
          (ofCol ((!![1, 1; 0, 1] : Matrix (Fin 2) (Fin 2) ℚ) *ᵥ ![1, 0]))
          = hac (ofMatrix (term1 - term4)) :=
  ⟨by decide, by decide!, by rw [← Mat.inverse_eq_inv]; decide!, by decide!, by decide!,
    StandardErrorsKRSFRPCpp_exact_pricing ![1, 0] !![3, 1; 2, 1; -1, -1; 0, -1]
      !![1, 1; 0, 1; -1, -1; 0, -1] !![1, 1; 0, 1] panel_covariance_factors_returns
      !![10/3, 2; 2, 4/3] (by decide) (by decide!) (by rw [← Mat.inverse_eq_inv]; decide!)
      (by decide!)⟩

/-- The four terms of `StandardErrorsKRSFRPCpp` on the example panel with the premia
`(1, 0)`, which price the mean returns exactly: `term2` and `term3` are zero. -/
theorem StandardErrorsKRSFRPCpp_exact_pricing_example :
    (StandardErrorsKRSFRPCpp_locals (ofCol ![1, 0]) panel_returns panel_factors panel_beta
        panel_covariance_factors_returns panel_variance_returns panel_mean_returns).map
      (fun l => decide (
        l.var_ret_inv_err_krs = ofMatrix !![0; 0] ∧
        l.term2 = ofMatrix !![0, 0; 0, 0; 0, 0; 0, 0] ∧
        l.term3 = ofMatrix !![0, 0; 0, 0; 0, 0; 0, 0] ∧
        StandardErrorsKRSFRPCpp_terms (ofCol ![1, 0]) panel_returns panel_factors panel_beta
          panel_covariance_factors_returns panel_variance_returns panel_mean_returns
          = sub l.term1 l.term4)) = .ok true := by
  decide!

end FactorMAP
